import Mathlib

/-!
Verification of the route-finding core of `A_star_algorithm.py`.

The program computes a shortest drivable path on a directed multigraph
(`osmnx`/`networkx` `MultiDiGraph`) with the `networkx` A* routine, then sums
edge lengths over consecutive node pairs of the returned path
(`get_edge_length`, `total_dist`) and classifies each transition into a turn
instruction from compass bearings (`bearing`, the threshold buckets at
45/135/225/315 degrees).

Embedding choices:
- node ids are `ℕ`; coordinates are pairs `(y, x) : ℚ × ℚ` of latitude and
  longitude in degrees, as stored on graph nodes;
- edge attribute dictionaries become `EdgeData` with optional `length` and
  `name` (the Python code reads both with `.get(..., default)`);
- a `MultiDiGraph` becomes a node list plus an edge list in insertion order;
  `G.get_edge_data(u, v)` becomes `Graph.edgeData`, whose order of parallel
  edges is the insertion order of the multigraph keys;
- float arithmetic on bearings is modelled over `ℝ`, with `atan2` defined by
  the C/Python case analysis, and the Python `%` on nonnegative reals as
  `fmod a b = a - b * ⌊a / b⌋`;
- the geodesic heuristic (float trigonometry from `geopy`) is a parameter
  `h : ℕ → ℚ` of the search, with the properties the spec asserts of it
  (consistency with the edge weights) taken as hypotheses where needed.
-/

namespace AStarRoute

/-- Attribute record of one multigraph edge: the Python code reads
`edge.get('length', 0)` and `edge.get('name', 'Unnamed Road')`, so both
attributes may be absent. -/
structure EdgeData where
  length : Option ℚ
  name : Option String
deriving DecidableEq, Repr

/-- Road graph: node list `(id, (y, x))` and directed edge list
`(from, to, attrs)`, both in insertion order. -/
structure Graph where
  nodeList : List (ℕ × ℚ × ℚ)
  edges : List (ℕ × ℕ × EdgeData)
deriving Repr

/-- Ids of the graph nodes. -/
def Graph.nodeIds (G : Graph) : List ℕ := G.nodeList.map Prod.fst

/-- Coordinate `(y, x)` of a node, as read from `G.nodes[u]['y']` and
`G.nodes[u]['x']`. -/
def Graph.coord (G : Graph) (u : ℕ) : ℚ × ℚ :=
  match G.nodeList.find? (fun p => p.1 == u) with
  | some p => p.2
  | none => (0, 0)

/-- Attribute dictionaries of all parallel edges from `u` to `v`, in key
insertion order; `[]` plays the role of `G.get_edge_data(u, v)` returning
`None`. -/
def Graph.edgeData (G : Graph) (u v : ℕ) : List EdgeData :=
  (G.edges.filter (fun e => e.1 == u && e.2.1 == v)).map (fun e => e.2.2)

/-- Translation of `get_edge_length` (source lines 56-62): take the first key
of the edge-data dict and read its `length` attribute with default `0`;
return `0` when there is no edge data at all. -/
def get_edge_length (G : Graph) (u v : ℕ) : ℚ :=
  match G.edgeData u v with
  | [] => 0
  | e :: _ => e.length.getD 0

/-- Translation of line 63: `total_dist = sum(get_edge_length(u, v) for u, v
in zip(path[:-1], path[1:]))`. -/
def total_dist (G : Graph) (path : List ℕ) : ℚ :=
  ((path.zip path.tail).map (fun pr => get_edge_length G pr.1 pr.2)).sum

/-- Default street marker used by the step printer. -/
def unnamedRoad : String := "Unnamed Road"

/-- Street name shown for the pair `(u, v)`: the first edge's `name`
attribute, with the `'Unnamed Road'` default (source lines 68-74). -/
def stepStreet (G : Graph) (u v : ℕ) : String :=
  (((G.edgeData u v).head?).bind EdgeData.name).getD unnamedRoad

/-- Length shown for the pair `(u, v)`: the first edge's `length` attribute,
with default `0` (source lines 68-75). -/
def stepLength (G : Graph) (u v : ℕ) : ℚ :=
  (((G.edgeData u v).head?).bind EdgeData.length).getD 0

/-- Turn instructions produced by the step printer. -/
inductive Turn where
  | start
  | straight
  | right
  | back
  | left
deriving DecidableEq, Repr

/-- One printed step: instruction, street name and length (source line 103). -/
structure Step where
  turn : Turn
  street : String
  length : ℚ
deriving DecidableEq, Repr

/-- Python `math.atan2`, by the C99 case analysis (for our inputs only the
signs of the exact real arguments matter; in particular `atan2 0 0 = 0`). -/
noncomputable def atan2 (y x : ℝ) : ℝ :=
  if 0 < x then Real.arctan (y / x)
  else if x < 0 then
    (if 0 ≤ y then Real.arctan (y / x) + Real.pi else Real.arctan (y / x) - Real.pi)
  else
    (if 0 < y then Real.pi / 2 else if y < 0 then -(Real.pi / 2) else 0)

/-- Python `math.radians`. -/
noncomputable def radians (d : ℚ) : ℝ := (d : ℝ) * Real.pi / 180

/-- Python `math.degrees`. -/
noncomputable def degrees (r : ℝ) : ℝ := r * 180 / Real.pi

/-- Python `%` for real operands and positive modulus. -/
noncomputable def fmod (a b : ℝ) : ℝ := a - b * (⌊a / b⌋ : ℤ)

/-- Translation of the inner `bearing` function (source lines 82-89); the
argument pairs are the `(y, x)` coordinate dictionaries of two nodes. -/
noncomputable def bearing (a b : ℚ × ℚ) : ℝ :=
  let lat1 := radians a.1
  let lon1 := radians a.2
  let lat2 := radians b.1
  let lon2 := radians b.2
  let dlon := lon2 - lon1
  let x := Real.sin dlon * Real.cos lat2
  let y := Real.cos lat1 * Real.sin lat2 - Real.sin lat1 * Real.cos lat2 * Real.cos dlon
  fmod (degrees (atan2 x y) + 360) 360

/-- Threshold buckets of source lines 93-100: the chain of `if diff < 45 or
diff > 315 / elif diff < 135 / elif diff < 225 / else`. -/
noncomputable def turnOfDiff (diff : ℝ) : Turn :=
  if diff < 45 ∨ 315 < diff then .straight
  else if diff < 135 then .right
  else if diff < 225 then .back
  else .left

/-- One iteration of the step loop (source lines 67-103) at 1-based index `i`
with pair `(u, v)`; `brg` abstracts the bearing function. Note that the
source sets `prev = G.nodes[path[i-1]]` where `i` is the 1-based loop
counter, so `prev` is the coordinate of `u` itself, not of the node before
it. -/
noncomputable def mkStep (G : Graph) (brg : ℚ × ℚ → ℚ × ℚ → ℝ)
    (path : List ℕ) (i u v : ℕ) : Step :=
  { street := stepStreet G u v
    length := stepLength G u v
    turn :=
      if 1 < i then
        let prev := G.coord (path.getD (i - 1) 0)
        let curr := G.coord u
        let next := G.coord v
        let prevBearing := brg prev curr
        let nextBearing := brg curr next
        turnOfDiff (fmod (nextBearing - prevBearing + 360) 360)
      else .start }

/-- Step list of the loop `for i, (u, v) in enumerate(zip(path[:-1],
path[1:]), 1)` (source lines 67-103). -/
noncomputable def routeSteps (G : Graph) (brg : ℚ × ℚ → ℚ × ℚ → ℝ)
    (path : List ℕ) : List Step :=
  (List.enumFrom 1 (path.zip path.tail)).map
    (fun x => mkStep G brg path x.1 x.2.1 x.2.2)

/-- Witness street names for the parallel-edge counterexample. -/
def strFirst : String := "First Avenue"

/-- Witness street name of the shorter parallel edge. -/
def strShort : String := "Short Lane"

/-- Two-node graph with two parallel edges `0 → 1`: the first-inserted edge
has length `200`, the second has length `50`. -/
def Gpar : Graph :=
  { nodeList := [(0, (0, 0)), (1, (0, 0))]
    edges := [(0, 1, ⟨some 200, some strFirst⟩), (0, 1, ⟨some 50, some strShort⟩)] }

/-- Modelled from the spec: `edge_between(u, v)` of §4.2 selects the cheapest
edge between an ordered pair (minimum `length`, ties by first-seen order);
this is the cost the spec prescribes for both the total-distance sum and
step attribution. The repository itself never computes this minimum. -/
def minCostD (G : Graph) (u v : ℕ) : ℚ :=
  match (G.edgeData u v).map (fun e => e.length.getD 0) with
  | [] => 0
  | c :: cs => cs.foldl min c

/-- Two-node graph whose single edge carries no attributes at all. -/
def Gbare : Graph :=
  { nodeList := [(0, (0, 0)), (1, (0, 0))]
    edges := [(0, 1, ⟨none, none⟩)] }

/-- Three collinear equator nodes heading due east: `(0,0)`, `(0,90)`,
`(0,135)`; both transitions have true bearing `90`. -/
def Gc3 : Graph :=
  { nodeList := [(0, (0, 0)), (1, (0, 90)), (2, (0, 135))]
    edges := [(0, 1, ⟨some 100, none⟩), (1, 2, ⟨some 100, none⟩)] }

/-- Association-list lookup used by the search state (first binding wins). -/
def alookup {α : Type} (m : List (ℕ × α)) (a : ℕ) : Option α :=
  (m.find? (fun p => p.1 == a)).map (fun p => p.2)

/-- Lengths (with the `0` default) of all parallel edges from `u` to `v`, in
insertion order. -/
def costs (G : Graph) (u v : ℕ) : List ℚ :=
  (G.edgeData u v).map (fun e => e.length.getD 0)

/-- Outgoing edges of `u` as `(target, length)` pairs, in insertion order. -/
def outEdges (G : Graph) (u : ℕ) : List (ℕ × ℚ) :=
  (G.edges.filter (fun e => e.1 == u)).map (fun e => (e.2.1, e.2.2.length.getD 0))

/-- A directed walk from `u` to `z` whose edge lengths sum to `c`; each step
traverses one (arbitrary) parallel edge. -/
inductive Walk (G : Graph) : ℕ → ℕ → ℚ → Prop where
  | nil (u : ℕ) : Walk G u u 0
  | cons {u v z : ℕ} {w c : ℚ} :
      w ∈ costs G u v → Walk G v z c → Walk G u z (w + c)

/-- A directed walk presented as its node list, with total edge length `c`. -/
inductive WalkL (G : Graph) : List ℕ → ℚ → Prop where
  | single (u : ℕ) : WalkL G [u] 0
  | cons {u v : ℕ} {l : List ℕ} {w c : ℚ} :
      w ∈ costs G u v → WalkL G (v :: l) c → WalkL G (u :: v :: l) (w + c)

/-- A valid directed node sequence: nonempty, and every consecutive pair is
joined by at least one edge. -/
def validSeq (G : Graph) (l : List ℕ) : Prop :=
  l ≠ [] ∧ ∀ pr ∈ l.zip l.tail, G.edgeData pr.1 pr.2 ≠ []

instance (G : Graph) (l : List ℕ) : Decidable (validSeq G l) := by
  unfold validSeq
  infer_instance

/-- Total weight of a node sequence, with the spec's cheapest-parallel-edge
cost for each consecutive pair. -/
def seqWeight (G : Graph) (l : List ℕ) : ℚ :=
  ((l.zip l.tail).map (fun pr => minCostD G pr.1 pr.2)).sum

/-- Errors of the path search, named as in the spec (§7): `InvalidNode` for
an absent endpoint, `NoRouteFound` for frontier exhaustion. -/
inductive RouteErr where
  | invalidNode
  | noRouteFound
deriving DecidableEq, Repr

/-- State of the A* search: the frontier (insertion order, possibly with
stale duplicate entries), the finalized nodes with their `g` values in
finalization order, the best known `g` per node, and the predecessor links. -/
structure SearchState where
  frontier : List (ℕ × ℚ)
  closed : List (ℕ × ℚ)
  best : List (ℕ × ℚ)
  pred : List (ℕ × ℕ)

/-- Priority `f(n) = g(n) + h(n)` of a frontier entry. -/
def fkey (h : ℕ → ℚ) (e : ℕ × ℚ) : ℚ := e.2 + h e.1

/-- Modelled from the spec: popping the frontier entry with lowest `f`,
tie-broken by lowest `h` and then by insertion order (§4.3). Returns the
selected entry and the frontier with that occurrence removed. -/
def popMin (h : ℕ → ℚ) : List (ℕ × ℚ) → Option ((ℕ × ℚ) × List (ℕ × ℚ))
  | [] => none
  | e :: rest =>
    match popMin h rest with
    | none => some (e, [])
    | some (e', rest') =>
      if fkey h e' < fkey h e ∨ (fkey h e' = fkey h e ∧ h e'.1 < h e.1) then
        some (e', e :: rest')
      else some (e, rest)

/-- Strict-improvement test on the best known `g` of a node. -/
def improves (b : Option ℚ) (ng : ℚ) : Bool :=
  match b with
  | none => true
  | some q => decide (ng < q)

/-- Modelled from the spec: relaxing one outgoing edge of the popped node
`u` with finalized cost `gu` (§4.3): if `gu + w` improves the best known
`g` of the target, record the new `g`, set the predecessor, and insert the
target at the end of the frontier. -/
def relaxOne (u : ℕ) (gu : ℚ) (st : SearchState) (e : ℕ × ℚ) : SearchState :=
  let ng := gu + e.2
  if improves (alookup st.best e.1) ng then
    { frontier := st.frontier ++ [(e.1, ng)]
      closed := st.closed
      best := (e.1, ng) :: st.best
      pred := (e.1, u) :: st.pred }
  else st

/-- Relaxation of every outgoing edge of the popped node. -/
def relaxAll (G : Graph) (u : ℕ) (gu : ℚ) (st : SearchState) : SearchState :=
  (outEdges G u).foldl (relaxOne u gu) st

/-- Modelled from the spec: the main A* loop of §4.3, performed in the
program by the external `networkx.astar_path` call (not part of this
repository's sources). Pop the lowest-`f` entry; terminate with the
finalized `g(destination)` when the destination is popped; skip entries of
already-finalized nodes; otherwise finalize and relax. Frontier exhaustion
is `NoRouteFound`. The fuel argument is an artifact of the embedding; it is
chosen large enough that it never runs out (see the termination bound). -/
def astarLoop (G : Graph) (h : ℕ → ℚ) (dst : ℕ) :
    ℕ → SearchState → Except RouteErr (ℚ × SearchState)
  | 0, _ => .error .noRouteFound
  | fuel + 1, st =>
    match popMin h st.frontier with
    | none => .error .noRouteFound
    | some (e, rest) =>
      if e.1 = dst then
        .ok (e.2, { st with frontier := rest, closed := st.closed ++ [e] })
      else if (alookup st.closed e.1).isSome then
        astarLoop G h dst fuel { st with frontier := rest }
      else
        astarLoop G h dst fuel
          (relaxAll G e.1 e.2 { st with frontier := rest, closed := st.closed ++ [e] })

/-- Modelled from the spec: path reconstruction by following recorded
predecessor links back to the source, then reversing (§4.3); the fuel is an
embedding artifact bounded by the number of finalized nodes. -/
def buildPath (pred : List (ℕ × ℕ)) : ℕ → ℕ → List ℕ
  | 0, u => [u]
  | fl + 1, u =>
    match alookup pred u with
    | none => [u]
    | some p => buildPath pred fl p ++ [u]

/-- Fuel that provably exceeds the total number of loop iterations. -/
def searchFuel (G : Graph) : ℕ := (G.nodeList.length + 1) * (G.edges.length + 1) + 1

/-- Modelled from the spec: `find_path` of §4.3 (the `nx.astar_path` call of
source line 54, which is external to the repository), returning the
reconstructed node path together with the finalized `g(destination)`.
`InvalidNode` when source or destination is not in the graph; the frontier
starts as `{source: g = 0}`. -/
def astarRun (G : Graph) (h : ℕ → ℚ) (s d : ℕ) : Except RouteErr (List ℕ × ℚ) :=
  if s ∈ G.nodeIds ∧ d ∈ G.nodeIds then
    match astarLoop G h d (searchFuel G) ⟨[(s, 0)], [], [(s, 0)], []⟩ with
    | .ok (gd, st) => .ok (buildPath st.pred st.closed.length d, gd)
    | .error e => .error e
  else .error .invalidNode

/-- The node path alone, as `nx.astar_path` returns it (source line 54). -/
def astar_path (G : Graph) (h : ℕ → ℚ) (s d : ℕ) : Except RouteErr (List ℕ) :=
  (astarRun G h s d).map Prod.fst

/-- The pair the program derives from a query: the path from the search and
the total of line 63 computed from it. -/
def routeResult (G : Graph) (h : ℕ → ℚ) (s d : ℕ) : Except RouteErr (List ℕ × ℚ) :=
  (astar_path G h s d).map (fun p => (p, total_dist G p))

/-- Heuristic used when all node coordinates coincide: the geodesic distance
from any node to the destination is then `0` (spec §4.1: distance is zero
iff the coordinates are equal). -/
def hZero : ℕ → ℚ := fun _ => 0

/-- Multigraph on three coincident nodes with parallel edges `0 → 1` of
lengths `[200, 50]` (insertion order) and a two-edge alternative
`0 → 2 → 1` of total length `100`. -/
def Gc1 : Graph :=
  { nodeList := [(0, (0, 0)), (1, (0, 0)), (2, (0, 0))]
    edges := [(0, 1, ⟨some 200, none⟩), (0, 1, ⟨some 50, none⟩),
      (0, 2, ⟨some 60, none⟩), (2, 1, ⟨some 40, none⟩)] }

/-- Spec scenario graph: `A→B` of `100`, `B→C` of `50`, `A→C` of `200`, on
coincident coordinates. -/
def Gw1 : Graph :=
  { nodeList := [(0, (0, 0)), (1, (0, 0)), (2, (0, 0))]
    edges := [(0, 1, ⟨some 100, none⟩), (1, 2, ⟨some 50, none⟩),
      (0, 2, ⟨some 200, none⟩)] }

/-- Coverage of a node `b` with bound `bound`: either `b` is finalized with
a `g` at most `bound`, or some frontier entry for `b` has `g` at most
`bound`. -/
def covered (st : SearchState) (b : ℕ) (bound : ℚ) : Prop :=
  (∃ gb, alookup st.closed b = some gb ∧ gb ≤ bound) ∨
    (∃ gb, (b, gb) ∈ st.frontier ∧ gb ≤ bound)

/-- Wellformedness of a recorded best value `gb` of node `a`: either `a` is
the source with `g = 0` and no predecessor, or the predecessor link points
to a finalized node whose `g` plus one parallel-edge cost gives `gb`. -/
def predOK (G : Graph) (s : ℕ) (closed : List (ℕ × ℚ)) (pred : List (ℕ × ℕ))
    (a : ℕ) (gb : ℚ) : Prop :=
  (a = s ∧ gb = 0 ∧ alookup pred a = none) ∨
    (∃ p gp w, alookup pred a = some p ∧ alookup closed p = some gp ∧
      w ∈ costs G p a ∧ gb = gp + w)

/-- Chain property of the finalized list: every entry is the source with
`g = 0`, or its predecessor link points to an earlier finalized entry whose
`g` plus one parallel-edge cost gives its `g`. -/
def ChainInv (G : Graph) (s : ℕ) (closed : List (ℕ × ℚ)) (pred : List (ℕ × ℕ)) : Prop :=
  ∀ i, ∀ hi : i < closed.length,
    ((closed.get ⟨i, hi⟩).1 = s ∧ (closed.get ⟨i, hi⟩).2 = 0 ∧
      alookup pred (closed.get ⟨i, hi⟩).1 = none) ∨
    (∃ j, ∃ hj : j < closed.length, j < i ∧ ∃ w,
      alookup pred (closed.get ⟨i, hi⟩).1 = some (closed.get ⟨j, hj⟩).1 ∧
      w ∈ costs G (closed.get ⟨j, hj⟩).1 (closed.get ⟨i, hi⟩).1 ∧
      (closed.get ⟨i, hi⟩).2 = (closed.get ⟨j, hj⟩).2 + w)

/-- Hypotheses on the graph and heuristic under which the searched results
are analyzed: unique node ids, edge endpoints in the node set, non-negative
weights, and the consistency the spec asserts of the geodesic heuristic
(§4.3). -/
structure GraphOK (G : Graph) (h : ℕ → ℚ) : Prop where
  nodupIds : G.nodeIds.Nodup
  edgesWf : ∀ e ∈ G.edges, e.1 ∈ G.nodeIds ∧ e.2.1 ∈ G.nodeIds
  nonneg : ∀ e ∈ G.edges, 0 ≤ e.2.2.length.getD 0
  hcons : ∀ u v w, w ∈ costs G u v → h u ≤ w + h v

/-- Invariant of the search loop. -/
structure Inv (G : Graph) (h : ℕ → ℚ) (s d : ℕ) (st : SearchState) : Prop where
  frSub : ∀ e ∈ st.frontier, e.1 ∈ G.nodeIds
  clSub : ∀ e ∈ st.closed, e.1 ∈ G.nodeIds
  clNodup : (st.closed.map Prod.fst).Nodup
  dOpen : d ∉ st.closed.map Prod.fst
  soundFr : ∀ e ∈ st.frontier, Walk G s e.1 e.2
  soundCl : ∀ e ∈ st.closed, Walk G s e.1 e.2
  opt : ∀ e ∈ st.closed, ∀ c, Walk G s e.1 c → e.2 ≤ c
  edgeCov : ∀ e ∈ st.closed, ∀ b w, w ∈ costs G e.1 b → covered st b (e.2 + w)
  srcCov : s ∈ st.closed.map Prod.fst ∨ ∃ g0, (s, g0) ∈ st.frontier ∧ g0 ≤ 0
  bestFr : ∀ e ∈ st.frontier, ∃ gb, alookup st.best e.1 = some gb ∧ gb ≤ e.2
  bestOpen : ∀ a gb, a ∉ st.closed.map Prod.fst → alookup st.best a = some gb →
    (a, gb) ∈ st.frontier ∧ predOK G s st.closed st.pred a gb
  bestCl : ∀ e ∈ st.closed, alookup st.best e.1 = some e.2
  chain : ChainInv G s st.closed st.pred

/-- Facts established at a successful return: the finalized list ends at
the destination, the chain property holds, and `g(destination)` is optimal
and achieved. -/
structure Post (G : Graph) (s d : ℕ) (gd : ℚ) (st : SearchState) : Prop where
  chain : ChainInv G s st.closed st.pred
  lastd : st.closed.getLast? = some (d, gd)
  opt : ∀ c, Walk G s d c → gd ≤ c
  sound : Walk G s d gd

/-- Invariant during the relaxation fold for the freshly finalized node `u`
with cost `gu`: all of `Inv` except that edge coverage is only demanded of
previously finalized nodes, plus membership of `(u, gu)` in the finalized
list. -/
structure InvRel (G : Graph) (h : ℕ → ℚ) (s d u : ℕ) (gu : ℚ) (st : SearchState) : Prop where
  frSub : ∀ e ∈ st.frontier, e.1 ∈ G.nodeIds
  clSub : ∀ e ∈ st.closed, e.1 ∈ G.nodeIds
  clNodup : (st.closed.map Prod.fst).Nodup
  dOpen : d ∉ st.closed.map Prod.fst
  soundFr : ∀ e ∈ st.frontier, Walk G s e.1 e.2
  soundCl : ∀ e ∈ st.closed, Walk G s e.1 e.2
  opt : ∀ e ∈ st.closed, ∀ c, Walk G s e.1 c → e.2 ≤ c
  edgeCovOld : ∀ e ∈ st.closed, e.1 ≠ u → ∀ b w, w ∈ costs G e.1 b →
    covered st b (e.2 + w)
  srcCov : s ∈ st.closed.map Prod.fst ∨ ∃ g0, (s, g0) ∈ st.frontier ∧ g0 ≤ 0
  bestFr : ∀ e ∈ st.frontier, ∃ gb, alookup st.best e.1 = some gb ∧ gb ≤ e.2
  bestOpen : ∀ a gb, a ∉ st.closed.map Prod.fst → alookup st.best a = some gb →
    (a, gb) ∈ st.frontier ∧ predOK G s st.closed st.pred a gb
  bestCl : ∀ e ∈ st.closed, alookup st.best e.1 = some e.2
  chain : ChainInv G s st.closed st.pred
  uIn : (u, gu) ∈ st.closed

/-- Number of graph nodes not yet finalized. -/
def openCount (G : Graph) (keys : List ℕ) : ℕ :=
  (G.nodeIds.filter (fun x => decide (x ∉ keys))).length

/-- Termination potential of the loop: every iteration strictly decreases
it. -/
def pot (G : Graph) (st : SearchState) : ℕ :=
  st.frontier.length + openCount G (st.closed.map Prod.fst) * G.edges.length

/-- Unfolded form of `bearing`, convenient for rewriting. -/
theorem bearing_eval (a b : ℚ × ℚ) :
    bearing a b =
      fmod (degrees (atan2
        (Real.sin (radians b.2 - radians a.2) * Real.cos (radians b.1))
        (Real.cos (radians a.1) * Real.sin (radians b.1) -
          Real.sin (radians a.1) * Real.cos (radians b.1) *
            Real.cos (radians b.2 - radians a.2))) + 360) 360 := rfl

/-- fmod for a value already in `[0, 360)`: the Python `x % 360` is `x`. -/
theorem fmod_self_lt (a : ℝ) (h0 : 0 ≤ a) (h1 : a < 360) : fmod a 360 = a := by
  have hz : ⌊a / 360⌋ = 0 := by
    rw [Int.floor_eq_zero_iff, Set.mem_Ico]
    constructor
    · positivity
    · rw [div_lt_one (by norm_num : (0:ℝ) < 360)]; linarith
  simp [fmod, hz]

/-- fmod of a value in `[360, 720)`, as produced by the `+ 360` shifts. -/
theorem fmod_shift (a : ℝ) (h0 : 360 ≤ a) (h1 : a < 720) : fmod a 360 = a - 360 := by
  have hz : ⌊a / 360⌋ = 1 := by
    rw [Int.floor_eq_iff]
    constructor
    · push_cast
      rw [le_div_iff (by norm_num : (0:ℝ) < 360)]; linarith
    · push_cast
      rw [div_lt_iff (by norm_num : (0:ℝ) < 360)]; linarith
  rw [fmod, hz]
  push_cast
  ring

/-- degrees of `0` is `0`. -/
theorem degrees_zero : degrees 0 = 0 := by simp [degrees]

/-- degrees of a right angle is `90`. -/
theorem degrees_pi_div_two : degrees (Real.pi / 2) = 90 := by
  have hpi := Real.pi_ne_zero
  field_simp [degrees]
  ring

/-- atan2 at the origin is `0`, as in C and Python. -/
theorem atan2_zero_zero : atan2 0 0 = 0 := by
  simp [atan2]

/-- atan2 on the positive y-axis is a right angle. -/
theorem atan2_pos_zero (y : ℝ) (hy : 0 < y) : atan2 y 0 = Real.pi / 2 := by
  simp [atan2, hy, not_lt_of_gt hy]

/-- Degenerate case of the source's `bearing`: both endpoints share one
coordinate. The formula yields `atan2(0, 0) = 0`, hence bearing `0`. -/
theorem bearing_self (a : ℚ × ℚ) : bearing a a = 0 := by
  rw [bearing_eval]
  rw [sub_self, Real.sin_zero, Real.cos_zero, zero_mul, mul_one]
  rw [show Real.cos (radians a.1) * Real.sin (radians a.1) -
      Real.sin (radians a.1) * Real.cos (radians a.1) = 0 by ring]
  rw [atan2_zero_zero, degrees_zero, zero_add]
  rw [fmod_shift 360 (by norm_num) (by norm_num)]
  norm_num

/-- radians of `0` is `0`. -/
theorem radians_zero : radians 0 = 0 := by simp [radians]

/-- Bearing between two equator points travelling east is exactly `90`
degrees: both latitudes are `0`, so the `y` component of the formula
vanishes and the `x` component is `sin dlon > 0`. -/
theorem bearing_equator_east (x₁ x₂ : ℚ) (hlt : x₁ < x₂) (hlt2 : x₂ - x₁ < 180) :
    bearing (0, x₁) (0, x₂) = 90 := by
  have hpi := Real.pi_pos
  have hx : ((x₁:ℝ)) < (x₂:ℝ) := by exact_mod_cast hlt
  have hx2 : ((x₂:ℝ)) - (x₁:ℝ) < 180 := by
    have h := hlt2
    have : ((x₂ - x₁ : ℚ) : ℝ) < 180 := by exact_mod_cast h
    push_cast at this
    linarith
  have hd0 : (0:ℝ) < radians x₂ - radians x₁ := by
    unfold radians
    nlinarith
  have hdpi : radians x₂ - radians x₁ < Real.pi := by
    unfold radians
    nlinarith
  have hsin : 0 < Real.sin (radians x₂ - radians x₁) :=
    Real.sin_pos_of_pos_of_lt_pi hd0 hdpi
  show fmod (degrees (atan2
      (Real.sin (radians x₂ - radians x₁) * Real.cos (radians 0))
      (Real.cos (radians 0) * Real.sin (radians 0) -
        Real.sin (radians 0) * Real.cos (radians 0) *
          Real.cos (radians x₂ - radians x₁))) + 360) 360 = 90
  rw [radians_zero]
  simp only [Real.sin_zero, Real.cos_zero, mul_one, mul_zero, zero_mul, sub_zero]
  rw [atan2_pos_zero _ hsin, degrees_pi_div_two]
  rw [show (90:ℝ) + 360 = 450 by norm_num]
  rw [fmod_shift 450 (by norm_num) (by norm_num)]
  norm_num

/-- Evaluation of the first threshold branch: `diff < 45`. -/
theorem turnOfDiff_straight_lo {d : ℝ} (h : d < 45) : turnOfDiff d = .straight := by
  unfold turnOfDiff
  rw [if_pos (Or.inl h)]

/-- Evaluation of the first threshold branch: `diff > 315`. -/
theorem turnOfDiff_straight_hi {d : ℝ} (h : 315 < d) : turnOfDiff d = .straight := by
  unfold turnOfDiff
  rw [if_pos (Or.inr h)]

/-- Evaluation of the second threshold branch: `45 ≤ diff < 135`. -/
theorem turnOfDiff_right {d : ℝ} (h1 : 45 ≤ d) (h2 : d < 135) : turnOfDiff d = .right := by
  unfold turnOfDiff
  rw [if_neg (by push_neg; exact ⟨by linarith, by linarith⟩), if_pos h2]

/-- Evaluation of the third threshold branch: `135 ≤ diff < 225`. -/
theorem turnOfDiff_back {d : ℝ} (h1 : 135 ≤ d) (h2 : d < 225) : turnOfDiff d = .back := by
  unfold turnOfDiff
  rw [if_neg (by push_neg; exact ⟨by linarith, by linarith⟩),
    if_neg (by linarith), if_pos h2]

/-- Evaluation of the final threshold branch: `225 ≤ diff ≤ 315`. -/
theorem turnOfDiff_left {d : ℝ} (h1 : 225 ≤ d) (h2 : d ≤ 315) : turnOfDiff d = .left := by
  unfold turnOfDiff
  rw [if_neg (by push_neg; exact ⟨by linarith, by linarith⟩),
    if_neg (by linarith), if_neg (by linarith)]

/-- Projection of the `turn` field of `mkStep`. -/
theorem mkStep_turn (G : Graph) (brg : ℚ × ℚ → ℚ × ℚ → ℝ) (path : List ℕ) (i u v : ℕ) :
    (mkStep G brg path i u v).turn =
      if 1 < i then
        turnOfDiff (fmod (brg (G.coord u) (G.coord v) -
          brg (G.coord (path.getD (i - 1) 0)) (G.coord u) + 360) 360)
      else .start := rfl

/-- Projection of the `length` field of `mkStep`. -/
theorem mkStep_length (G : Graph) (brg : ℚ × ℚ → ℚ × ℚ → ℝ) (path : List ℕ) (i u v : ℕ) :
    (mkStep G brg path i u v).length = stepLength G u v := rfl

/-- Projection of the `street` field of `mkStep`. -/
theorem mkStep_street (G : Graph) (brg : ℚ × ℚ → ℚ × ℚ → ℝ) (path : List ℕ) (i u v : ℕ) :
    (mkStep G brg path i u v).street = stepStreet G u v := rfl

/-- The step list has one entry per consecutive pair of the path. -/
theorem routeSteps_length (G : Graph) (brg : ℚ × ℚ → ℚ × ℚ → ℝ) (path : List ℕ) :
    (routeSteps G brg path).length = path.length - 1 := by
  unfold routeSteps
  rw [List.length_map, List.enumFrom_length, List.length_zip]
  cases path with
  | nil => simp
  | cons a t => simp [Nat.min_def]

/-- Indexing into the zip of a list with its tail. -/
theorem zip_tail_get? : ∀ (l : List ℕ) (k : ℕ), k + 1 < l.length →
    (l.zip l.tail).get? k = some (l.getD k 0, l.getD (k + 1) 0) := by
  intro l
  induction l with
  | nil => intro k hk; simp at hk
  | cons a t ih =>
    intro k hk
    cases t with
    | nil => simp at hk
    | cons b t' =>
      cases k with
      | zero => rfl
      | succ k' =>
        have hk' : k' + 1 < (b :: t').length := by
          simpa using Nat.lt_of_succ_lt_succ hk
        simpa [List.zip_cons_cons, List.getD] using ih k' hk'

/-- Indexing into the step list: the entry at 0-based index `k` is the step
for the pair `(path[k], path[k+1])` with 1-based loop counter `k + 1`. -/
theorem routeSteps_get? (G : Graph) (brg : ℚ × ℚ → ℚ × ℚ → ℝ) (path : List ℕ) (k : ℕ)
    (hk : k + 1 < path.length) :
    (routeSteps G brg path).get? k =
      some (mkStep G brg path (k + 1) (path.getD k 0) (path.getD (k + 1) 0)) := by
  unfold routeSteps
  rw [List.get?_map, List.enumFrom_get?, zip_tail_get? path k hk]
  simp [Nat.add_comm]

/-- Mapping a function that ignores the index over an enumerated list. -/
theorem map_enumFrom_ignore {α β : Type} (f : α → β) : ∀ (n : ℕ) (l : List α),
    (List.enumFrom n l).map (fun x => f x.2) = l.map f := by
  intro n l
  induction l generalizing n with
  | nil => rfl
  | cons a t ih => simp [List.enumFrom, ih]

/-- C4: for every path, maneuver classification produces exactly
`len(path) - 1` steps, one per consecutive node pair, and whenever a first
step exists (at least two nodes) its instruction is `Start` regardless of
the bearing function. -/
theorem classify_count_and_first_start (G : Graph) (brg : ℚ × ℚ → ℚ × ℚ → ℝ)
    (path : List ℕ) :
    (routeSteps G brg path).length = path.length - 1 ∧
      (routeSteps G brg path).head?.map Step.turn =
        (if 2 ≤ path.length then some Turn.start else none) := by
  refine ⟨routeSteps_length G brg path, ?_⟩
  cases path with
  | nil => rfl
  | cons a t =>
    cases t with
    | nil => rfl
    | cons b t' =>
      have h2 : 2 ≤ (a :: b :: t').length := by
        simp only [List.length_cons]
        omega
      rw [if_pos h2]
      show some (mkStep G brg (a :: b :: t') 1 a b).turn = some Turn.start
      rw [mkStep_turn, if_neg (by norm_num)]

/-- C5: the sum of the produced step lengths equals `total_dist` of the
path, exactly (the model uses exact rationals for the float sums). -/
theorem steps_sum_eq_total_dist (G : Graph) (brg : ℚ × ℚ → ℚ × ℚ → ℝ) (path : List ℕ) :
    ((routeSteps G brg path).map Step.length).sum = total_dist G path := by
  unfold routeSteps total_dist
  rw [List.map_map]
  have h1 : (Step.length ∘ fun (x : ℕ × ℕ × ℕ) =>
      mkStep G brg path x.1 x.2.1 x.2.2) =
      (fun (x : ℕ × ℕ × ℕ) => stepLength G x.2.1 x.2.2) := rfl
  rw [h1]
  rw [map_enumFrom_ignore (fun (pr : ℕ × ℕ) => stepLength G pr.1 pr.2) 1
    (path.zip path.tail)]
  congr 1
  apply List.map_congr_left
  intro pr _
  unfold stepLength get_edge_length
  cases h : G.edgeData pr.1 pr.2 with
  | nil => rfl
  | cons e es => rfl

/-- C8: a degenerate (zero-length) segment at a transition after the first is
classified `Straight`: its bearing is `atan2(0,0) = 0` and, because the
source's `prev` is the current node itself, the previous bearing is `0` as
well, so `diff = 0 < 45`. Classification is total (first conjunct): no
error is surfaced. -/
theorem degenerate_segment_classified_straight (G : Graph) (path : List ℕ) (k : ℕ)
    (h1 : 1 ≤ k) (hk : k + 1 < path.length)
    (hdeg : G.coord (path.getD k 0) = G.coord (path.getD (k + 1) 0)) :
    (routeSteps G bearing path).length = path.length - 1 ∧
      ((routeSteps G bearing path).get? k).map Step.turn = some Turn.straight := by
  refine ⟨routeSteps_length G bearing path, ?_⟩
  rw [routeSteps_get? G bearing path k hk]
  show some (mkStep G bearing path (k + 1) (path.getD k 0) (path.getD (k + 1) 0)).turn
      = some Turn.straight
  rw [mkStep_turn, if_pos (by omega : 1 < k + 1)]
  rw [show k + 1 - 1 = k from by omega]
  rw [← hdeg]
  rw [bearing_self]
  have hz : fmod ((0:ℝ) - 0 + 360) 360 = 0 := by
    norm_num
    rw [fmod_shift 360 (by norm_num) (by norm_num)]
    norm_num
  rw [hz, turnOfDiff_straight_lo (by norm_num)]

/-- C2 counterexample: with parallel edges of lengths `[200, 50]` in
insertion order, the code's cost lookup and step attribution use the first
edge (length `200`, name of the first edge), not the minimum-length edge. -/
theorem parallel_edges_first_not_min_counterexample :
    get_edge_length Gpar 0 1 = 200 ∧ minCostD Gpar 0 1 = 50 ∧
      (200 : ℚ) ≠ 50 ∧ stepStreet Gpar 0 1 = strFirst ∧
      stepLength Gpar 0 1 = 200 ∧ strFirst ≠ strShort := by
  refine ⟨by decide, by decide, by norm_num, by decide, by decide, by decide⟩

/-- C2 amended: for every ordered pair with at least one edge, the cost used
in the total-distance computation and the street name and length of the
produced step are all taken from the first-seen edge among the parallel
edges, regardless of length. -/
theorem parallel_edges_first_seen_selection (G : Graph) (u v : ℕ)
    (e : EdgeData) (es : List EdgeData) (h : G.edgeData u v = e :: es) :
    get_edge_length G u v = e.length.getD 0 ∧
      stepLength G u v = e.length.getD 0 ∧
      stepStreet G u v = e.name.getD unnamedRoad := by
  unfold get_edge_length stepLength stepStreet
  rw [h]
  exact ⟨rfl, rfl, rfl⟩

/-- C2 witness: the amended selection rule evaluated on the concrete
parallel-edge graph. -/
theorem parallel_edges_first_seen_selection_witness :
    Gpar.edgeData 0 1 = ⟨some 200, some strFirst⟩ :: [⟨some 50, some strShort⟩] ∧
      (get_edge_length Gpar 0 1 = (some (200:ℚ)).getD 0 ∧
        stepLength Gpar 0 1 = (some (200:ℚ)).getD 0 ∧
        stepStreet Gpar 0 1 = (some strFirst).getD unnamedRoad) :=
  ⟨by decide, parallel_edges_first_seen_selection Gpar 0 1
    ⟨some 200, some strFirst⟩ [⟨some 50, some strShort⟩] (by decide)⟩

/-- C10: the per-pair lookups are total and default to `0`: when no edge
data exists, or the selected first edge has no `length` attribute, both the
total-distance contribution and the step length are `0`. -/
theorem edge_length_lookup_defaults (G : Graph) (u v : ℕ) :
    (G.edgeData u v = [] → get_edge_length G u v = 0 ∧ stepLength G u v = 0) ∧
      (∀ e es, G.edgeData u v = e :: es → e.length = none →
        get_edge_length G u v = 0 ∧ stepLength G u v = 0) := by
  constructor
  · intro h
    unfold get_edge_length stepLength
    rw [h]
    exact ⟨rfl, rfl⟩
  · intro e es h hnone
    unfold get_edge_length stepLength
    rw [h]
    refine ⟨?_, ?_⟩
    · show e.length.getD 0 = 0
      rw [hnone]
      rfl
    · show (e.length).getD 0 = 0
      rw [hnone]
      rfl

/-- C10 witness: the defaults evaluated on a concrete edge with no `length`
attribute. -/
theorem edge_length_lookup_defaults_witness :
    Gbare.edgeData 0 1 = ⟨none, none⟩ :: [] ∧ (⟨none, none⟩ : EdgeData).length = none ∧
      (get_edge_length Gbare 0 1 = 0 ∧ stepLength Gbare 0 1 = 0) :=
  ⟨by decide, rfl,
    (edge_length_lookup_defaults Gbare 0 1).2 ⟨none, none⟩ [] (by decide) rfl⟩

/-- C3: evaluation of the step loop at the failing input. The path
`[0, 1, 2]` continues straight east (both segment bearings are `90`, so the
spec's `diff = (next_bearing - prev_bearing + 360) mod 360 = 0` classifies
the second transition as Straight, second conjunct), yet the code classifies
it as TurnRight (first conjunct): the source reads `prev = G.nodes[path[i-1]]`
with the 1-based counter `i`, so its `prev_bearing` is the degenerate
bearing `0` of the current node to itself rather than the previous segment's
bearing `90`. -/
theorem straight_east_path_misclassified :
    (routeSteps Gc3 bearing [0, 1, 2]).map Step.turn = [Turn.start, Turn.right] ∧
      turnOfDiff (fmod (bearing (Gc3.coord 1) (Gc3.coord 2) -
        bearing (Gc3.coord 0) (Gc3.coord 1) + 360) 360) = Turn.straight := by
  have hc0 : Gc3.coord 0 = (0, 0) := rfl
  have hc1 : Gc3.coord 1 = (0, 90) := rfl
  have hc2 : Gc3.coord 2 = (0, 135) := rfl
  have hb12 : bearing (Gc3.coord 1) (Gc3.coord 2) = 90 := by
    rw [hc1, hc2]
    exact bearing_equator_east 90 135 (by norm_num) (by norm_num)
  have hb01 : bearing (Gc3.coord 0) (Gc3.coord 1) = 90 := by
    rw [hc0, hc1]
    exact bearing_equator_east 0 90 (by norm_num) (by norm_num)
  constructor
  · have e1 : routeSteps Gc3 bearing [0, 1, 2] =
        [mkStep Gc3 bearing [0, 1, 2] 1 0 1, mkStep Gc3 bearing [0, 1, 2] 2 1 2] := rfl
    rw [e1, List.map_cons, List.map_cons, List.map_nil, mkStep_turn, mkStep_turn]
    rw [if_neg (by norm_num : ¬ (1:ℕ) < 1), if_pos (by norm_num : (1:ℕ) < 2)]
    rw [show ([0, 1, 2] : List ℕ).getD (2 - 1) 0 = 1 from rfl]
    rw [bearing_self, hb12]
    have hd : fmod ((90:ℝ) - 0 + 360) 360 = 90 := by
      norm_num
      rw [fmod_shift 450 (by norm_num) (by norm_num)]
      norm_num
    rw [hd, turnOfDiff_right (by norm_num) (by norm_num)]
  · rw [hb12, hb01]
    have hz : fmod ((90:ℝ) - 90 + 360) 360 = 0 := by
      norm_num
      rw [fmod_shift 360 (by norm_num) (by norm_num)]
      norm_num
    rw [hz, turnOfDiff_straight_lo (by norm_num)]

/-- C8 witness: a concrete path revisiting node `1`, whose second segment
has identical endpoint coordinates, is classified Straight at that step. -/
theorem degenerate_segment_classified_straight_witness :
    ((1:ℕ) ≤ 1 ∧ 1 + 1 < ([0, 1, 1] : List ℕ).length ∧
      Gc3.coord (([0, 1, 1] : List ℕ).getD 1 0) =
        Gc3.coord (([0, 1, 1] : List ℕ).getD (1 + 1) 0)) ∧
      ((routeSteps Gc3 bearing [0, 1, 1]).length = ([0, 1, 1] : List ℕ).length - 1 ∧
        ((routeSteps Gc3 bearing [0, 1, 1]).get? 1).map Step.turn = some Turn.straight) :=
  ⟨⟨by decide, by decide, by decide⟩,
    degenerate_segment_classified_straight Gc3 [0, 1, 1] 1 (by decide) (by decide)
      (by decide)⟩

/-- Unfolding equation of one loop iteration. -/
theorem astarLoop_succ (G : Graph) (h : ℕ → ℚ) (dst fuel : ℕ) (st : SearchState) :
    astarLoop G h dst (fuel + 1) st =
      match popMin h st.frontier with
      | none => .error .noRouteFound
      | some (e, rest) =>
        if e.1 = dst then
          .ok (e.2, { st with frontier := rest, closed := st.closed ++ [e] })
        else if (alookup st.closed e.1).isSome then
          astarLoop G h dst fuel { st with frontier := rest }
        else
          astarLoop G h dst fuel
            (relaxAll G e.1 e.2 { st with frontier := rest, closed := st.closed ++ [e] }) :=
  rfl

/-- Lookup on the empty association list. -/
theorem alookup_nil {α : Type} (a : ℕ) : alookup ([] : List (ℕ × α)) a = none := rfl

/-- Lookup on a cons cell. -/
theorem alookup_cons {α : Type} (p : ℕ × α) (m : List (ℕ × α)) (a : ℕ) :
    alookup (p :: m) a = if p.1 = a then some p.2 else alookup m a := by
  by_cases h : p.1 = a
  · simp [alookup, List.find?_cons, h]
  · simp [alookup, List.find?_cons, h]

/-- A successful lookup is a membership. -/
theorem alookup_mem {α : Type} {m : List (ℕ × α)} {a : ℕ} {x : α}
    (h : alookup m a = some x) : (a, x) ∈ m := by
  unfold alookup at h
  rcases hf : m.find? (fun p => p.1 == a) with _ | p
  · rw [hf] at h
    simp at h
  · rw [hf] at h
    have h1 := List.find?_some hf
    have h2 := List.mem_of_find?_eq_some hf
    obtain ⟨p1, p2⟩ := p
    simp only [Option.map_some', Option.some.injEq] at h
    simp only [beq_iff_eq] at h1
    subst h1
    subst h
    exact h2

/-- With pairwise-distinct keys, a membership determines the lookup. -/
theorem mem_alookup {α : Type} {m : List (ℕ × α)} {a : ℕ} {x : α}
    (hnd : (m.map Prod.fst).Nodup) (hm : (a, x) ∈ m) : alookup m a = some x := by
  induction m with
  | nil => simp at hm
  | cons p t ih =>
    rw [alookup_cons]
    rw [List.map_cons, List.nodup_cons] at hnd
    rcases List.mem_cons.mp hm with h | h
    · rw [← h]
      simp
    · have hpa : p.1 ≠ a := by
        intro hc
        exact hnd.1 (hc ▸ (List.mem_map_of_mem Prod.fst h))
      rw [if_neg hpa]
      exact ih hnd.2 h

/-- A lookup that succeeds on the left part of an append. -/
theorem alookup_append_left {α : Type} {m₁ : List (ℕ × α)} (m₂ : List (ℕ × α)) {a : ℕ}
    {x : α} (h : alookup m₁ a = some x) : alookup (m₁ ++ m₂) a = some x := by
  unfold alookup at h ⊢
  rw [List.find?_append]
  rcases hf : m₁.find? (fun p => p.1 == a) with _ | p
  · rw [hf] at h
    simp at h
  · rw [hf] at h
    rw [hf]
    simpa using h

/-- A lookup that fails on the left part of an append. -/
theorem alookup_append_right {α : Type} {m₁ : List (ℕ × α)} (m₂ : List (ℕ × α)) {a : ℕ}
    (h : alookup m₁ a = none) : alookup (m₁ ++ m₂) a = alookup m₂ a := by
  unfold alookup at h ⊢
  rw [List.find?_append]
  rcases hf : m₁.find? (fun p => p.1 == a) with _ | p
  · rw [hf]
    simp
  · rw [hf] at h
    simp at h

/-- A lookup fails exactly when the key is absent. -/
theorem alookup_eq_none {α : Type} {m : List (ℕ × α)} {a : ℕ} :
    alookup m a = none ↔ a ∉ m.map Prod.fst := by
  induction m with
  | nil => simp [alookup]
  | cons p t ih =>
    rw [alookup_cons, List.map_cons]
    by_cases h : p.1 = a
    · simp [h]
    · simp only [if_neg h, ih, List.mem_cons]
      constructor
      · intro hn hc
        rcases hc with hc | hc
        · exact h hc.symm
        · exact hn hc
      · intro hn
        exact fun hc => hn (Or.inr hc)

/-- Unfolding equation of `popMin` on a cons cell. -/
theorem popMin_cons (h : ℕ → ℚ) (e : ℕ × ℚ) (rest : List (ℕ × ℚ)) :
    popMin h (e :: rest) =
      match popMin h rest with
      | none => some (e, [])
      | some (e', rest') =>
        if fkey h e' < fkey h e ∨ (fkey h e' = fkey h e ∧ h e'.1 < h e.1) then
          some (e', e :: rest')
        else some (e, rest) := rfl

/-- popMin always succeeds on a nonempty frontier. -/
theorem popMin_isSome (h : ℕ → ℚ) (e : ℕ × ℚ) (rest : List (ℕ × ℚ)) :
    (popMin h (e :: rest)).isSome := by
  rcases hr : popMin h rest with _ | pr
  · have hx : popMin h (e :: rest) = some (e, []) := by
      rw [popMin_cons, hr]
    rw [hx]
    rfl
  · obtain ⟨e', rest'⟩ := pr
    by_cases hb : fkey h e' < fkey h e ∨ (fkey h e' = fkey h e ∧ h e'.1 < h e.1)
    · have hx : popMin h (e :: rest) = some (e', e :: rest') := by
        rw [popMin_cons, hr]
        exact if_pos hb
      rw [hx]
      rfl
    · have hx : popMin h (e :: rest) = some (e, rest) := by
        rw [popMin_cons, hr]
        exact if_neg hb
      rw [hx]
      rfl

/-- popMin fails exactly on the empty frontier. -/
theorem popMin_eq_none_iff (h : ℕ → ℚ) (l : List (ℕ × ℚ)) :
    popMin h l = none ↔ l = [] := by
  cases l with
  | nil => simp [popMin]
  | cons e rest =>
    constructor
    · intro hp
      have hs := popMin_isSome h e rest
      rw [hp] at hs
      exact absurd hs (by simp)
    · intro hl
      exact absurd hl (by simp)

/-- The popped entry is a member, the rest is the frontier without that
occurrence, and the popped entry minimizes `f` over the whole frontier. -/
theorem popMin_spec (h : ℕ → ℚ) : ∀ (l : List (ℕ × ℚ)) (e : ℕ × ℚ) (r : List (ℕ × ℚ)),
    popMin h l = some (e, r) →
      l.Perm (e :: r) ∧ ∀ a ∈ l, fkey h e ≤ fkey h a := by
  intro l
  induction l with
  | nil => intro e r hp; simp [popMin] at hp
  | cons b rest ih =>
    intro e r hp
    rcases hrest : popMin h rest with _ | pr
    · have hre : rest = [] := (popMin_eq_none_iff h rest).mp hrest
      subst hre
      have hp' : some (b, ([] : List (ℕ × ℚ))) = some (e, r) := by
        rw [← hp]
        rfl
      simp only [Option.some.injEq, Prod.mk.injEq] at hp'
      obtain ⟨he, hr⟩ := hp'
      subst he
      subst hr
      exact ⟨List.Perm.refl _, by intro a ha; simp at ha; rw [ha]⟩
    · obtain ⟨e', rest'⟩ := pr
      have hp0 : (if fkey h e' < fkey h b ∨ (fkey h e' = fkey h b ∧ h e'.1 < h b.1) then
          some (e', b :: rest') else some (b, rest)) = some (e, r) := by
        rw [← hp, popMin_cons, hrest]
      clear hp
      have hp := hp0
      obtain ⟨hperm', hmin'⟩ := ih e' rest' hrest
      by_cases hb : fkey h e' < fkey h b ∨ (fkey h e' = fkey h b ∧ h e'.1 < h b.1)
      · rw [if_pos hb] at hp
        simp only [Option.some.injEq, Prod.mk.injEq] at hp
        obtain ⟨he, hr⟩ := hp
        subst he
        subst hr
        constructor
        · exact List.Perm.trans (hperm'.cons b) (List.Perm.swap _ _ _)
        · intro a ha
          rcases List.mem_cons.mp ha with h1 | h1
          · subst h1
            rcases hb with hb | hb
            · exact le_of_lt hb
            · exact le_of_eq hb.1
          · exact hmin' a h1
      · rw [if_neg hb] at hp
        simp only [Option.some.injEq, Prod.mk.injEq] at hp
        obtain ⟨he, hr⟩ := hp
        subst he
        subst hr
        constructor
        · exact List.Perm.refl _
        · intro a ha
          rcases List.mem_cons.mp ha with h1 | h1
          · subst h1
            exact le_refl _
          · have h2 : fkey h b ≤ fkey h e' := by
              push_neg at hb
              exact hb.1
            exact le_trans h2 (hmin' a h1)

/-- Membership in `outEdges` corresponds to membership in `costs`. -/
theorem mem_outEdges_iff (G : Graph) (u v : ℕ) (w : ℚ) :
    (v, w) ∈ outEdges G u ↔ w ∈ costs G u v := by
  unfold outEdges costs Graph.edgeData
  simp only [List.mem_map, List.mem_filter, beq_iff_eq, Bool.and_eq_true, decide_eq_true_eq,
    Prod.mk.injEq]
  constructor
  · rintro ⟨e, ⟨he, hu⟩, hv, hw⟩
    exact ⟨e.2.2, ⟨e, ⟨he, hu, hv⟩, rfl⟩, hw⟩
  · rintro ⟨ed, ⟨e, ⟨he, hu, hv⟩, hed⟩, hw⟩
    exact ⟨e, ⟨he, hu⟩, hv, by rw [hed]; exact hw⟩

/-- Walks extend along one more edge at the end. -/
theorem Walk.extend {G : Graph} {s u v : ℕ} {c w : ℚ}
    (hw : Walk G s u c) (he : w ∈ costs G u v) : Walk G s v (c + w) := by
  induction hw with
  | nil a =>
    have hx := Walk.cons he (Walk.nil v)
    rw [show (0:ℚ) + w = w + 0 by ring]
    exact hx
  | cons hx hrest ih =>
    have hy := Walk.cons hx (ih he)
    rw [show (_ + _ : ℚ) + w = _ by rw [add_assoc]]
    exact hy

/-- Telescoped consistency: a consistent heuristic is bounded along walks. -/
theorem walk_telescope {G : Graph} {h : ℕ → ℚ}
    (hcons : ∀ u v w, w ∈ costs G u v → h u ≤ w + h v) :
    ∀ {y z : ℕ} {c : ℚ}, Walk G y z c → h y ≤ c + h z := by
  intro y z c hw
  induction hw with
  | nil u => simp
  | cons hx hrest ih =>
    have h1 := hcons _ _ _ hx
    linarith

/-- A listed walk is nonempty. -/
theorem WalkL.ne_nil {G : Graph} {l : List ℕ} {c : ℚ} (hw : WalkL G l c) : l ≠ [] := by
  cases hw with
  | single u => simp
  | cons hx hrest => simp

/-- A listed walk extends along one more edge at the end. -/
theorem WalkL.append_edge {G : Graph} : ∀ {l : List ℕ} {c : ℚ}, WalkL G l c →
    ∀ {p a : ℕ} {w : ℚ}, l.getLast? = some p → w ∈ costs G p a →
      WalkL G (l ++ [a]) (c + w) := by
  intro l c hw
  induction hw with
  | single u =>
    intro p a w hl he
    simp at hl
    subst hl
    have hx := WalkL.cons he (WalkL.single a)
    rw [show (0:ℚ) + w = w + 0 by ring]
    exact hx
  | @cons u v t w0 c0 hx hrest ih =>
    intro p a w hl he
    have hl' : (v :: t).getLast? = some p := by
      rw [← hl]
      symm
      apply List.getLast?_cons_cons
    have hy := WalkL.cons hx (ih hl' he)
    rw [List.cons_append, add_assoc]
    exact hy

/-- A listed walk from its head to its last node is a walk. -/
theorem WalkL.to_walk {G : Graph} : ∀ {l : List ℕ} {c : ℚ}, WalkL G l c →
    ∀ {s z : ℕ}, l.head? = some s → l.getLast? = some z → Walk G s z c := by
  intro l c hw
  induction hw with
  | single u =>
    intro s z hh hl
    simp at hh hl
    subst hh
    subst hl
    exact Walk.nil _
  | cons hx hrest ih =>
    intro s z hh hl
    simp at hh
    subst hh
    refine Walk.cons hx (ih rfl ?_)
    rw [← hl]
    symm
    apply List.getLast?_cons_cons

/-- A listed walk is a valid node sequence. -/
theorem WalkL.valid {G : Graph} : ∀ {l : List ℕ} {c : ℚ}, WalkL G l c → validSeq G l := by
  intro l c hw
  induction hw with
  | single u => exact ⟨by simp, by simp⟩
  | cons hx hrest ih =>
    refine ⟨by simp, ?_⟩
    intro pr hpr
    rw [show (_ :: _ :: _ : List ℕ).tail = _ :: _ from rfl, List.zip_cons_cons] at hpr
    rcases List.mem_cons.mp hpr with h1 | h1
    · subst h1
      intro hc
      unfold costs at hx
      rw [hc] at hx
      simp at hx
    · exact ih.2 pr h1

/-- Under the no-parallel-edges hypothesis, the cost of a listed walk is the
`total_dist` the program computes for it. -/
theorem WalkL.total_dist_eq {G : Graph}
    (hsimple : ∀ u v : ℕ, (G.edgeData u v).length ≤ 1) :
    ∀ {l : List ℕ} {c : ℚ}, WalkL G l c → total_dist G l = c := by
  intro l c hw
  induction hw with
  | single u => rfl
  | @cons u v t w c0 hx hrest ih =>
    have hcons : total_dist G (u :: v :: t) =
        get_edge_length G u v + total_dist G (v :: t) := rfl
    have hw_eq : w = get_edge_length G u v := by
      unfold costs at hx
      rcases hE : G.edgeData u v with _ | ⟨e, es⟩
      · rw [hE] at hx
        simp at hx
      · have hes : es = [] := by
          have hlen := hsimple u v
          rw [hE] at hlen
          simp only [List.length_cons] at hlen
          have h0 : es.length = 0 := by omega
          exact List.eq_nil_of_length_eq_zero h0
        subst hes
        rw [hE] at hx
        simp at hx
        unfold get_edge_length
        rw [hE]
        exact hx
    rw [hcons, ih, hw_eq]

/-- The chosen minimum cost is one of the parallel-edge costs. -/
theorem foldl_min_mem : ∀ (cs : List ℚ) (c : ℚ), cs.foldl min c ∈ c :: cs := by
  intro cs
  induction cs with
  | nil => intro c; simp
  | cons d ds ih =>
    intro c
    rw [List.foldl_cons]
    rcases List.mem_cons.mp (ih (min c d)) with h1 | h1
    · rcases min_choice c d with hm | hm
      · rw [h1, hm]
        exact List.mem_cons_self _ _
      · rw [h1, hm]
        exact List.mem_cons_of_mem _ (List.mem_cons_self _ _)
    · exact List.mem_cons_of_mem _ (List.mem_cons_of_mem _ h1)

/-- When the pair has at least one edge, `minCostD` is one of its costs. -/
theorem minCostD_mem {G : Graph} {u v : ℕ} (hne : G.edgeData u v ≠ []) :
    minCostD G u v ∈ costs G u v := by
  rcases hE : G.edgeData u v with _ | ⟨e, es⟩
  · exact absurd hE hne
  · have h1 : minCostD G u v =
        (es.map (fun ed => ed.length.getD 0)).foldl min (e.length.getD 0) := by
      unfold minCostD
      rw [hE, List.map_cons]
    have h2 : costs G u v =
        (e.length.getD 0) :: es.map (fun ed => ed.length.getD 0) := by
      unfold costs
      rw [hE, List.map_cons]
    rw [h1, h2]
    exact foldl_min_mem _ _

/-- Every valid node sequence carries a listed walk of weight `seqWeight`. -/
theorem validSeq_walkL (G : Graph) : ∀ (l : List ℕ), validSeq G l →
    WalkL G l (seqWeight G l) := by
  intro l
  induction l with
  | nil => intro hv; exact absurd rfl hv.1
  | cons a t ih =>
    intro hv
    cases t with
    | nil =>
      have hz : seqWeight G [a] = 0 := rfl
      rw [hz]
      exact WalkL.single a
    | cons b t' =>
      have hpair : G.edgeData a b ≠ [] := by
        apply hv.2 (a, b)
        rw [show (a :: b :: t' : List ℕ).tail = b :: t' from rfl, List.zip_cons_cons]
        exact List.mem_cons_self _ _
      have hrest : validSeq G (b :: t') := by
        refine ⟨by simp, ?_⟩
        intro pr hpr
        apply hv.2 pr
        rw [show (a :: b :: t' : List ℕ).tail = b :: t' from rfl, List.zip_cons_cons]
        exact List.mem_cons_of_mem _ hpr
      have hw := ih hrest
      have hq : seqWeight G (a :: b :: t') =
          minCostD G a b + seqWeight G (b :: t') := rfl
      rw [hq]
      exact WalkL.cons (minCostD_mem hpair) hw

/-- A cost membership comes from a concrete edge of the edge list. -/
theorem mem_costs_exists {G : Graph} {u v : ℕ} {w : ℚ} (hw : w ∈ costs G u v) :
    ∃ e ∈ G.edges, e.1 = u ∧ e.2.1 = v ∧ e.2.2.length.getD 0 = w := by
  unfold costs Graph.edgeData at hw
  simp only [List.map_map, List.mem_map, List.mem_filter, beq_iff_eq, Bool.and_eq_true,
    decide_eq_true_eq, Function.comp] at hw
  obtain ⟨e, ⟨he, hu, hv⟩, hww⟩ := hw
  exact ⟨e, he, hu, hv, hww⟩

/-- The endpoints of any cost membership are graph nodes (wellformed graph). -/
theorem costs_endpoints {G : Graph}
    (hwf : ∀ e ∈ G.edges, e.1 ∈ G.nodeIds ∧ e.2.1 ∈ G.nodeIds)
    {u v : ℕ} {w : ℚ} (hw : w ∈ costs G u v) :
    u ∈ G.nodeIds ∧ v ∈ G.nodeIds := by
  obtain ⟨e, he, hu, hv, _⟩ := mem_costs_exists hw
  have := hwf e he
  rw [hu, hv] at this
  exact this

/-- Non-negative edge list gives non-negative costs. -/
theorem costs_nonneg {G : Graph} (hnn : ∀ e ∈ G.edges, 0 ≤ e.2.2.length.getD 0)
    {u v : ℕ} {w : ℚ} (hw : w ∈ costs G u v) : 0 ≤ w := by
  obtain ⟨e, he, _, _, hww⟩ := mem_costs_exists hw
  rw [← hww]
  exact hnn e he

/-- Coverage is monotone in the frontier when the finalized list is fixed. -/
theorem covered_mono {st st' : SearchState} (hcl : st'.closed = st.closed)
    (hfr : ∀ e ∈ st.frontier, e ∈ st'.frontier) {b : ℕ} {bound : ℚ}
    (hc : covered st b bound) : covered st' b bound := by
  rcases hc with ⟨gb, h1, h2⟩ | ⟨gb, h1, h2⟩
  · exact Or.inl ⟨gb, by rw [hcl]; exact h1, h2⟩
  · exact Or.inr ⟨gb, hfr _ h1, h2⟩

/-- Walking from a covered node to an open node passes through the
frontier: either the start is on the frontier and the whole remaining walk
witnesses it, or the start is finalized and every relaxed edge keeps a
covered node one step further along the walk. -/
theorem coverWalk {G : Graph} {st : SearchState}
    (hF : ∀ e ∈ st.closed, ∀ b w, w ∈ costs G e.1 b → covered st b (e.2 + w)) :
    ∀ {a z : ℕ} {c : ℚ}, Walk G a z c → ∀ {A : ℚ}, covered st a A →
      z ∉ st.closed.map Prod.fst →
      ∃ y gy c₂, (y, gy) ∈ st.frontier ∧ Walk G y z c₂ ∧ gy + c₂ ≤ A + c := by
  intro a z c hw
  induction hw with
  | nil u =>
    intro A hstart hz
    rcases hstart with ⟨ga, hga, _⟩ | ⟨ga, hga, hle⟩
    · exact absurd (List.mem_map_of_mem Prod.fst (alookup_mem hga)) hz
    · exact ⟨u, ga, 0, hga, Walk.nil u, by linarith⟩
  | @cons u v z' w c' hx hrest ih =>
    intro A hstart hz
    rcases hstart with ⟨ga, hga, hle⟩ | ⟨ga, hga, hle⟩
    · have hmem := alookup_mem hga
      have hcov := hF (u, ga) hmem v w hx
      have hcov' : covered st v (A + w) := by
        rcases hcov with ⟨gb, h1, h2⟩ | ⟨gb, h1, h2⟩
        · exact Or.inl ⟨gb, h1, by linarith⟩
        · exact Or.inr ⟨gb, h1, by linarith⟩
      obtain ⟨y, gy, c₂, hy, hwalk, hle2⟩ := ih hcov' hz
      exact ⟨y, gy, c₂, hy, hwalk, by linarith⟩
    · exact ⟨u, ga, w + c', hga, Walk.cons hx hrest, by linarith⟩

/-- Any walk from the source to a non-finalized node is witnessed by a
frontier entry whose `g` plus remaining walk cost is at most the walk cost. -/
theorem reach_frontier_entry {G : Graph} {h : ℕ → ℚ} {s d : ℕ} {st : SearchState}
    (inv : Inv G h s d st) {z : ℕ} {c : ℚ} (hw : Walk G s z c)
    (hz : z ∉ st.closed.map Prod.fst) :
    ∃ y gy c₂, (y, gy) ∈ st.frontier ∧ Walk G y z c₂ ∧ gy + c₂ ≤ c := by
  have hstart : covered st s 0 := by
    rcases inv.srcCov with hc | ⟨g0, hg0, hle⟩
    · obtain ⟨p, hp, hps⟩ := List.mem_map.mp hc
      obtain ⟨p1, p2⟩ := p
      simp only at hps
      subst hps
      left
      refine ⟨p2, mem_alookup inv.clNodup hp, ?_⟩
      exact inv.opt (p1, p2) hp 0 (Walk.nil p1)
    · exact Or.inr ⟨g0, hg0, hle⟩
  obtain ⟨y, gy, c₂, hy, hwalk, hle⟩ := coverWalk inv.edgeCov hw hstart hz
  exact ⟨y, gy, c₂, hy, hwalk, by linarith⟩

/-- Optimality at pop time: whenever the minimum-`f` frontier entry
`(u, gu)` of a non-finalized node is popped, `gu` is at most the cost of
every walk from the source to `u` (the heart of A* correctness with a
consistent heuristic). -/
theorem pop_opt {G : Graph} {h : ℕ → ℚ} {s d : ℕ} {st : SearchState}
    (hGOK : GraphOK G h) (inv : Inv G h s d st)
    {u : ℕ} {gu : ℚ} {rest : List (ℕ × ℚ)}
    (hpop : popMin h st.frontier = some ((u, gu), rest))
    (hu : u ∉ st.closed.map Prod.fst) :
    ∀ c, Walk G s u c → gu ≤ c := by
  intro c hw
  obtain ⟨hperm, hmin⟩ := popMin_spec h st.frontier (u, gu) rest hpop
  obtain ⟨y, gy, c₂, hy, hwalk, hle⟩ := reach_frontier_entry inv hw hu
  have h1 := hmin (y, gy) hy
  have h2 := walk_telescope hGOK.hcons hwalk
  unfold fkey at h1
  simp only at h1
  linarith

/-- Unfolding equation of `relaxOne`. -/
theorem relaxOne_eq (u : ℕ) (gu : ℚ) (st : SearchState) (e : ℕ × ℚ) :
    relaxOne u gu st e =
      if improves (alookup st.best e.1) (gu + e.2) then
        ⟨st.frontier ++ [(e.1, gu + e.2)], st.closed, (e.1, gu + e.2) :: st.best,
          (e.1, u) :: st.pred⟩
      else st := rfl

/-- A failed improvement exhibits a best value at most the candidate. -/
theorem improves_false {b : Option ℚ} {ng : ℚ} (h : ¬ improves b ng = true) :
    ∃ q, b = some q ∧ q ≤ ng := by
  unfold improves at h
  rcases b with _ | q
  · simp at h
  · simp only [decide_eq_true_eq] at h
    exact ⟨q, rfl, le_of_not_lt h⟩

/-- A successful improvement against a present best value is strict. -/
theorem improves_true_some {q ng : ℚ} (h : improves (some q) ng = true) : ng < q := by
  unfold improves at h
  simpa using h

/-- Relaxing one edge preserves the fold invariant and establishes coverage
of the edge's target with bound `gu + w`. -/
theorem relaxOne_preserve {G : Graph} {h : ℕ → ℚ} {s d u : ℕ} {gu : ℚ}
    (hGOK : GraphOK G h) {st : SearchState} (inv : InvRel G h s d u gu st)
    {e : ℕ × ℚ} (he : e ∈ outEdges G u) :
    InvRel G h s d u gu (relaxOne u gu st e) ∧
      covered (relaxOne u gu st e) e.1 (gu + e.2) := by
  have hw : e.2 ∈ costs G u e.1 := (mem_outEdges_iff G u e.1 e.2).mp he
  have huLookup : alookup st.closed u = some gu := mem_alookup inv.clNodup inv.uIn
  have hwalkv : Walk G s e.1 (gu + e.2) :=
    Walk.extend (inv.soundCl (u, gu) inv.uIn) hw
  rw [relaxOne_eq]
  by_cases himp : improves (alookup st.best e.1) (gu + e.2) = true
  · rw [if_pos himp]
    have hvopen : e.1 ∉ st.closed.map Prod.fst := by
      intro hvc
      obtain ⟨p, hp, hpv⟩ := List.mem_map.mp hvc
      have hbv := inv.bestCl p hp
      rw [hpv] at hbv
      rw [hbv] at himp
      have hlt := improves_true_some himp
      have hge := inv.opt p hp (gu + e.2) (by rw [hpv]; exact hwalkv)
      linarith
    refine ⟨?_, ?_⟩
    · exact
        { frSub := by
            intro a ha
            rcases List.mem_append.mp ha with h1 | h1
            · exact inv.frSub a h1
            · simp only [List.mem_singleton] at h1
              subst h1
              exact (costs_endpoints hGOK.edgesWf hw).2
          clSub := inv.clSub
          clNodup := inv.clNodup
          dOpen := inv.dOpen
          soundFr := by
            intro a ha
            rcases List.mem_append.mp ha with h1 | h1
            · exact inv.soundFr a h1
            · simp only [List.mem_singleton] at h1
              subst h1
              exact hwalkv
          soundCl := inv.soundCl
          opt := inv.opt
          edgeCovOld := by
            intro a ha hau b w' hw'
            rcases inv.edgeCovOld a ha hau b w' hw' with ⟨gb, h1, h2⟩ | ⟨gb, h1, h2⟩
            · exact Or.inl ⟨gb, h1, h2⟩
            · exact Or.inr ⟨gb, List.mem_append_left _ h1, h2⟩
          srcCov := by
            rcases inv.srcCov with h1 | ⟨g0, hg0, hle⟩
            · exact Or.inl h1
            · exact Or.inr ⟨g0, List.mem_append_left _ hg0, hle⟩
          bestFr := by
            intro a ha
            rcases List.mem_append.mp ha with h1 | h1
            · obtain ⟨gb, hgb, hble⟩ := inv.bestFr a h1
              by_cases hav : a.1 = e.1
              · refine ⟨gu + e.2, ?_, ?_⟩
                · rw [alookup_cons, if_pos hav.symm]
                · rw [hav] at hgb
                  rw [hgb] at himp
                  have := improves_true_some himp
                  linarith
              · refine ⟨gb, ?_, hble⟩
                rw [alookup_cons, if_neg (fun hc => hav hc.symm)]
                exact hgb
            · simp only [List.mem_singleton] at h1
              subst h1
              refine ⟨gu + e.2, ?_, le_refl _⟩
              rw [alookup_cons, if_pos rfl]
          bestOpen := by
            intro a gb ha hlk
            by_cases hav : e.1 = a
            · rw [alookup_cons, if_pos hav] at hlk
              simp only [Option.some.injEq] at hlk
              subst hlk
              constructor
              · rw [← hav]
                exact List.mem_append_right _ (List.mem_singleton_self _)
              · right
                refine ⟨u, gu, e.2, ?_, huLookup, by rw [← hav]; exact hw, rfl⟩
                rw [alookup_cons, if_pos hav]
            · rw [alookup_cons, if_neg hav] at hlk
              obtain ⟨hmem, hpok⟩ := inv.bestOpen a gb ha hlk
              constructor
              · exact List.mem_append_left _ hmem
              · rcases hpok with ⟨h1, h2, h3⟩ | ⟨p, gp, w', h1, h2, h3, h4⟩
                · left
                  refine ⟨h1, h2, ?_⟩
                  rw [alookup_cons, if_neg hav]
                  exact h3
                · right
                  refine ⟨p, gp, w', ?_, h2, h3, h4⟩
                  rw [alookup_cons, if_neg hav]
                  exact h1
          bestCl := by
            intro a ha
            have hane : e.1 ≠ a.1 := by
              intro hc
              exact hvopen (hc ▸ List.mem_map_of_mem Prod.fst ha)
            rw [alookup_cons, if_neg hane]
            exact inv.bestCl a ha
          chain := by
            intro i hi
            have hne : e.1 ≠ (st.closed.get ⟨i, hi⟩).1 := by
              intro hc
              exact hvopen (hc ▸ List.mem_map_of_mem Prod.fst (st.closed.get_mem _ _))
            rcases inv.chain i hi with ⟨h1, h2, h3⟩ | ⟨j, hj, hji, w', h1, h2, h3⟩
            · left
              refine ⟨h1, h2, ?_⟩
              rw [alookup_cons, if_neg hne]
              exact h3
            · right
              refine ⟨j, hj, hji, w', ?_, h2, h3⟩
              rw [alookup_cons, if_neg hne]
              exact h1
          uIn := inv.uIn }
    · right
      exact ⟨gu + e.2, List.mem_append_right _ (List.mem_singleton_self _), le_refl _⟩
  · rw [if_neg himp]
    refine ⟨inv, ?_⟩
    obtain ⟨q, hq, hqle⟩ := improves_false himp
    by_cases hvc : e.1 ∈ st.closed.map Prod.fst
    · obtain ⟨p, hp, hpv⟩ := List.mem_map.mp hvc
      have hbv := inv.bestCl p hp
      rw [hpv] at hbv
      rw [hbv] at hq
      simp only [Option.some.injEq] at hq
      left
      refine ⟨p.2, ?_, by rw [hq]; exact hqle⟩
      have hpmem : (e.1, p.2) ∈ st.closed := by
        rw [← hpv]
        exact hp
      exact mem_alookup inv.clNodup hpmem
    · obtain ⟨hmem, _⟩ := inv.bestOpen e.1 q hvc hq
      right
      exact ⟨q, hmem, hqle⟩

/-- relaxOne does not change the finalized list. -/
theorem relaxOne_closed_eq (u : ℕ) (gu : ℚ) (st : SearchState) (e : ℕ × ℚ) :
    (relaxOne u gu st e).closed = st.closed := by
  rw [relaxOne_eq]
  by_cases himp : improves (alookup st.best e.1) (gu + e.2) = true
  · rw [if_pos himp]
  · rw [if_neg himp]

/-- relaxOne only appends to the frontier. -/
theorem relaxOne_frontier_mono (u : ℕ) (gu : ℚ) (st : SearchState) (e : ℕ × ℚ) :
    ∀ a ∈ st.frontier, a ∈ (relaxOne u gu st e).frontier := by
  intro a ha
  rw [relaxOne_eq]
  by_cases himp : improves (alookup st.best e.1) (gu + e.2) = true
  · rw [if_pos himp]
    exact List.mem_append_left _ ha
  · rw [if_neg himp]
    exact ha

/-- relaxOne grows the frontier by at most one entry. -/
theorem relaxOne_frontier_len (u : ℕ) (gu : ℚ) (st : SearchState) (e : ℕ × ℚ) :
    (relaxOne u gu st e).frontier.length ≤ st.frontier.length + 1 := by
  rw [relaxOne_eq]
  by_cases himp : improves (alookup st.best e.1) (gu + e.2) = true
  · rw [if_pos himp]
    simp
  · rw [if_neg himp]
    omega

/-- The relaxation fold preserves the fold invariant, establishes coverage
of every processed edge target, keeps the finalized list, only grows the
frontier, and grows it by at most one entry per edge. -/
theorem relaxAll_fold_preserve {G : Graph} {h : ℕ → ℚ} {s d u : ℕ} {gu : ℚ}
    (hGOK : GraphOK G h) :
    ∀ (todo : List (ℕ × ℚ)) (st : SearchState), InvRel G h s d u gu st →
      (∀ e ∈ todo, e ∈ outEdges G u) →
      InvRel G h s d u gu (todo.foldl (relaxOne u gu) st) ∧
        (∀ e ∈ todo, covered (todo.foldl (relaxOne u gu) st) e.1 (gu + e.2)) ∧
        (todo.foldl (relaxOne u gu) st).closed = st.closed ∧
        (∀ a ∈ st.frontier, a ∈ (todo.foldl (relaxOne u gu) st).frontier) ∧
        (todo.foldl (relaxOne u gu) st).frontier.length ≤
          st.frontier.length + todo.length := by
  intro todo
  induction todo with
  | nil =>
    intro st inv hsub
    exact ⟨inv, by simp, rfl, fun a ha => ha, by simp⟩
  | cons e todo ih =>
    intro st inv hsub
    obtain ⟨inv1, hcov1⟩ := relaxOne_preserve hGOK inv (hsub e (List.mem_cons_self _ _))
    obtain ⟨inv2, hcov2, hcl2, hfr2, hlen2⟩ :=
      ih (relaxOne u gu st e) inv1 (fun e' he' => hsub e' (List.mem_cons_of_mem _ he'))
    rw [List.foldl_cons]
    refine ⟨inv2, ?_, ?_, ?_, ?_⟩
    · intro e' he'
      rcases List.mem_cons.mp he' with hh | hh
      · subst hh
        exact covered_mono hcl2 hfr2 hcov1
      · exact hcov2 e' hh
    · rw [hcl2, relaxOne_closed_eq]
    · intro a ha
      exact hfr2 a (relaxOne_frontier_mono u gu st e a ha)
    · have ha := relaxOne_frontier_len u gu st e
      simp only [List.length_cons]
      omega

/-- The last entry of a concatenation with a singleton. -/
theorem get_concat_self {α : Type} (l : List α) (x : α)
    (h : l.length < (l ++ [x]).length) : (l ++ [x]).get ⟨l.length, h⟩ = x := by
  simp [List.get_append_right']

/-- Facts available when a non-finalized node `u` is popped with value
`gu`: optimality of `gu`, agreement with the recorded best value, the
predecessor wellformedness of `u`, the chain property after appending
`(u, gu)` to the finalized list, and frontier membership of the popped
entry. -/
theorem close_entry {G : Graph} {h : ℕ → ℚ} {s d : ℕ} {st : SearchState}
    (hGOK : GraphOK G h) (inv : Inv G h s d st)
    {u : ℕ} {gu : ℚ} {rest : List (ℕ × ℚ)}
    (hpop : popMin h st.frontier = some ((u, gu), rest))
    (hucl : u ∉ st.closed.map Prod.fst) :
    (∀ c, Walk G s u c → gu ≤ c) ∧ alookup st.best u = some gu ∧
      predOK G s st.closed st.pred u gu ∧
      ChainInv G s (st.closed ++ [(u, gu)]) st.pred ∧
      (u, gu) ∈ st.frontier := by
  obtain ⟨hperm, hmin⟩ := popMin_spec h st.frontier (u, gu) rest hpop
  have hufr : (u, gu) ∈ st.frontier := hperm.mem_iff.mpr (List.mem_cons_self _ _)
  have hopt := pop_opt hGOK inv hpop hucl
  obtain ⟨gb, hgb, hgble⟩ := inv.bestFr (u, gu) hufr
  obtain ⟨hgbmem, hpok⟩ := inv.bestOpen u gb hucl hgb
  have hle2 : gu ≤ gb := by
    have hmin2 := hmin (u, gb) hgbmem
    unfold fkey at hmin2
    simp only at hmin2
    linarith
  have hgu : gb = gu := le_antisymm (by simpa using hgble) hle2
  subst hgu
  refine ⟨hopt, hgb, hpok, ?_, hufr⟩
  intro i hi
  have hlen : (st.closed ++ [(u, gb)]).length = st.closed.length + 1 := by
    simp
  by_cases hilt : i < st.closed.length
  · have hget : (st.closed ++ [(u, gb)]).get ⟨i, hi⟩ = st.closed.get ⟨i, hilt⟩ :=
      List.get_append i hilt
    rcases inv.chain i hilt with ⟨h1, h2, h3⟩ | ⟨j, hj, hji, w, h1, h2, h3⟩
    · left
      rw [hget]
      exact ⟨h1, h2, h3⟩
    · right
      have hj' : j < (st.closed ++ [(u, gb)]).length := by
        rw [hlen]
        omega
      have hgetj : (st.closed ++ [(u, gb)]).get ⟨j, hj'⟩ = st.closed.get ⟨j, hj⟩ :=
        List.get_append j hj
      refine ⟨j, hj', hji, w, ?_, ?_, ?_⟩
      · rw [hget, hgetj]
        exact h1
      · rw [hget, hgetj]
        exact h2
      · rw [hget, hgetj]
        exact h3
  · have hieq : i = st.closed.length := by
      rw [hlen] at hi
      omega
    subst hieq
    have hget : (st.closed ++ [(u, gb)]).get ⟨st.closed.length, hi⟩ = (u, gb) :=
      get_concat_self _ _ hi
    rcases hpok with ⟨h1, h2, h3⟩ | ⟨p, gp, w, h1, h2, h3, h4⟩
    · left
      rw [hget]
      exact ⟨h1, h2, h3⟩
    · right
      obtain ⟨⟨j, hjlt⟩, hjget⟩ := List.mem_iff_get.mp (alookup_mem h2)
      have hj' : j < (st.closed ++ [(u, gb)]).length := by
        rw [hlen]
        omega
      have hgetj : (st.closed ++ [(u, gb)]).get ⟨j, hj'⟩ = st.closed.get ⟨j, hjlt⟩ :=
        List.get_append j hjlt
      refine ⟨j, hj', hjlt, w, ?_, ?_, ?_⟩
      · rw [hget, hgetj, hjget]
        exact h1
      · rw [hget, hgetj, hjget]
        exact h3
      · rw [hget, hgetj, hjget]
        exact h4

/-- With pairwise-distinct keys, a key determines its value. -/
theorem mem_key_unique {α : Type} {m : List (ℕ × α)} (hnd : (m.map Prod.fst).Nodup)
    {a : ℕ} {x y : α} (h1 : (a, x) ∈ m) (h2 : (a, y) ∈ m) : x = y := by
  have e1 := mem_alookup hnd h1
  have e2 := mem_alookup hnd h2
  rw [e1] at e2
  injection e2

/-- Dropping a stale pop (an entry of an already-finalized node) preserves
the invariant. -/
theorem stale_step {G : Graph} {h : ℕ → ℚ} {s d : ℕ} {st : SearchState}
    (inv : Inv G h s d st) {u : ℕ} {gu : ℚ} {rest : List (ℕ × ℚ)}
    (hpop : popMin h st.frontier = some ((u, gu), rest))
    (hucl : u ∈ st.closed.map Prod.fst) :
    Inv G h s d ⟨rest, st.closed, st.best, st.pred⟩ := by
  obtain ⟨hperm, hmin⟩ := popMin_spec h st.frontier (u, gu) rest hpop
  have hrest_sub : ∀ a ∈ rest, a ∈ st.frontier := fun a ha =>
    hperm.mem_iff.mpr (List.mem_cons_of_mem _ ha)
  have hufr : (u, gu) ∈ st.frontier := hperm.mem_iff.mpr (List.mem_cons_self _ _)
  obtain ⟨p, hp, hpu⟩ := List.mem_map.mp hucl
  have hpleq : p.2 ≤ gu :=
    inv.opt p hp gu (by rw [hpu]; exact inv.soundFr (u, gu) hufr)
  exact
    { frSub := fun a ha => inv.frSub a (hrest_sub a ha)
      clSub := inv.clSub
      clNodup := inv.clNodup
      dOpen := inv.dOpen
      soundFr := fun a ha => inv.soundFr a (hrest_sub a ha)
      soundCl := inv.soundCl
      opt := inv.opt
      edgeCov := by
        intro a ha b w hw
        rcases inv.edgeCov a ha b w hw with ⟨gb, h1, h2⟩ | ⟨gb, h1, h2⟩
        · exact Or.inl ⟨gb, h1, h2⟩
        · rcases List.mem_cons.mp (hperm.mem_iff.mp h1) with hh | hh
          · have hb : b = u ∧ gb = gu := by simpa [Prod.ext_iff] using hh
            left
            refine ⟨p.2, ?_, ?_⟩
            · exact mem_alookup inv.clNodup
                (show (b, p.2) ∈ st.closed by rw [hb.1, ← hpu]; exact hp)
            · have hgbu : gb = gu := hb.2
              linarith
          · exact Or.inr ⟨gb, hh, h2⟩
      srcCov := by
        rcases inv.srcCov with h1 | ⟨g0, hg0, hle⟩
        · exact Or.inl h1
        · rcases List.mem_cons.mp (hperm.mem_iff.mp hg0) with hh | hh
          · have hsu : s = u ∧ g0 = gu := by simpa [Prod.ext_iff] using hh
            left
            rw [hsu.1]
            exact hucl
          · exact Or.inr ⟨g0, hh, hle⟩
      bestFr := fun a ha => inv.bestFr a (hrest_sub a ha)
      bestOpen := by
        intro a gb ha hlk
        obtain ⟨hmem, hpok⟩ := inv.bestOpen a gb ha hlk
        refine ⟨?_, hpok⟩
        rcases List.mem_cons.mp (hperm.mem_iff.mp hmem) with hh | hh
        · exfalso
          have hau : a = u ∧ gb = gu := by simpa [Prod.ext_iff] using hh
          rw [hau.1] at ha
          exact ha hucl
        · exact hh
      bestCl := inv.bestCl
      chain := inv.chain }

/-- Finalizing a freshly popped node and relaxing its outgoing edges
preserves the invariant; moreover the finalized list gains exactly the
popped entry and the frontier grows by at most the out-degree. -/
theorem genuine_step {G : Graph} {h : ℕ → ℚ} {s d : ℕ} {st : SearchState}
    (hGOK : GraphOK G h) (inv : Inv G h s d st)
    {u : ℕ} {gu : ℚ} {rest : List (ℕ × ℚ)}
    (hpop : popMin h st.frontier = some ((u, gu), rest))
    (hucl : u ∉ st.closed.map Prod.fst) (hud : u ≠ d) :
    Inv G h s d (relaxAll G u gu ⟨rest, st.closed ++ [(u, gu)], st.best, st.pred⟩) ∧
      (relaxAll G u gu ⟨rest, st.closed ++ [(u, gu)], st.best, st.pred⟩).closed =
        st.closed ++ [(u, gu)] ∧
      (relaxAll G u gu ⟨rest, st.closed ++ [(u, gu)], st.best, st.pred⟩).frontier.length ≤
        rest.length + G.edges.length := by
  obtain ⟨hopt, hbest, hpok, hchain, hufr⟩ := close_entry hGOK inv hpop hucl
  obtain ⟨hperm, hmin⟩ := popMin_spec h st.frontier (u, gu) rest hpop
  have hrest_sub : ∀ a ∈ rest, a ∈ st.frontier := fun a ha =>
    hperm.mem_iff.mpr (List.mem_cons_of_mem _ ha)
  have hkeys : (st.closed ++ [(u, gu)]).map Prod.fst = st.closed.map Prod.fst ++ [u] := by
    simp
  have huNodes : u ∈ G.nodeIds := inv.frSub (u, gu) hufr
  have hlookup_u : alookup (st.closed ++ [(u, gu)]) u = some gu := by
    rw [alookup_append_right _ (alookup_eq_none.mpr hucl), alookup_cons, if_pos rfl]
  have inv1 : InvRel G h s d u gu ⟨rest, st.closed ++ [(u, gu)], st.best, st.pred⟩ :=
    { frSub := fun a ha => inv.frSub a (hrest_sub a ha)
      clSub := by
        intro a ha
        rcases List.mem_append.mp ha with h1 | h1
        · exact inv.clSub a h1
        · simp only [List.mem_singleton] at h1
          subst h1
          exact huNodes
      clNodup := by
        rw [hkeys, List.nodup_append]
        refine ⟨inv.clNodup, by simp, ?_⟩
        intro x hx hxu
        simp only [List.mem_singleton] at hxu
        subst hxu
        exact hucl hx
      dOpen := by
        rw [hkeys]
        intro hc
        rcases List.mem_append.mp hc with h1 | h1
        · exact inv.dOpen h1
        · simp only [List.mem_singleton] at h1
          exact hud h1.symm
      soundFr := fun a ha => inv.soundFr a (hrest_sub a ha)
      soundCl := by
        intro a ha
        rcases List.mem_append.mp ha with h1 | h1
        · exact inv.soundCl a h1
        · simp only [List.mem_singleton] at h1
          subst h1
          exact inv.soundFr (u, gu) hufr
      opt := by
        intro a ha
        rcases List.mem_append.mp ha with h1 | h1
        · exact inv.opt a h1
        · simp only [List.mem_singleton] at h1
          subst h1
          exact hopt
      edgeCovOld := by
        intro a ha hau b w hw
        rcases List.mem_append.mp ha with h1 | h1
        · rcases inv.edgeCov a h1 b w hw with ⟨gb, hg1, hg2⟩ | ⟨gb, hg1, hg2⟩
          · exact Or.inl ⟨gb, alookup_append_left _ hg1, hg2⟩
          · rcases List.mem_cons.mp (hperm.mem_iff.mp hg1) with hh | hh
            · have hb : b = u ∧ gb = gu := by simpa [Prod.ext_iff] using hh
              left
              refine ⟨gu, by rw [hb.1]; exact hlookup_u, by rw [← hb.2]; exact hg2⟩
            · exact Or.inr ⟨gb, hh, hg2⟩
        · exfalso
          simp only [List.mem_singleton] at h1
          subst h1
          exact hau rfl
      srcCov := by
        rcases inv.srcCov with h1 | ⟨g0, hg0, hle⟩
        · left
          rw [hkeys]
          exact List.mem_append_left _ h1
        · rcases List.mem_cons.mp (hperm.mem_iff.mp hg0) with hh | hh
          · have hsu : s = u ∧ g0 = gu := by simpa [Prod.ext_iff] using hh
            left
            rw [hkeys, hsu.1]
            exact List.mem_append_right _ (List.mem_singleton_self _)
          · exact Or.inr ⟨g0, hh, hle⟩
      bestFr := fun a ha => inv.bestFr a (hrest_sub a ha)
      bestOpen := by
        intro a gb ha hlk
        have ha' : a ∉ st.closed.map Prod.fst := by
          intro hc
          apply ha
          rw [hkeys]
          exact List.mem_append_left _ hc
        have hau : a ≠ u := by
          intro hc
          apply ha
          rw [hkeys, hc]
          exact List.mem_append_right _ (List.mem_singleton_self _)
        obtain ⟨hmem, hpok'⟩ := inv.bestOpen a gb ha' hlk
        constructor
        · rcases List.mem_cons.mp (hperm.mem_iff.mp hmem) with hh | hh
          · exfalso
            have := (by simpa [Prod.ext_iff] using hh : a = u ∧ gb = gu)
            exact hau this.1
          · exact hh
        · rcases hpok' with ⟨h1, h2, h3⟩ | ⟨p, gp, w, h1, h2, h3, h4⟩
          · exact Or.inl ⟨h1, h2, h3⟩
          · exact Or.inr ⟨p, gp, w, h1, alookup_append_left _ h2, h3, h4⟩
      bestCl := by
        intro a ha
        rcases List.mem_append.mp ha with h1 | h1
        · exact inv.bestCl a h1
        · simp only [List.mem_singleton] at h1
          subst h1
          exact hbest
      chain := hchain
      uIn := List.mem_append_right _ (List.mem_singleton_self _) }
  obtain ⟨inv2, hcov2, hcl2, hfr2, hlen2⟩ :=
    relaxAll_fold_preserve hGOK (outEdges G u)
      ⟨rest, st.closed ++ [(u, gu)], st.best, st.pred⟩ inv1 (fun e he => he)
  have hedges_len : (outEdges G u).length ≤ G.edges.length := by
    unfold outEdges
    rw [List.length_map]
    exact List.length_filter_le _ _
  have hcl2' : (relaxAll G u gu ⟨rest, st.closed ++ [(u, gu)], st.best,
      st.pred⟩).closed = st.closed ++ [(u, gu)] := hcl2
  have hlen2' : (relaxAll G u gu ⟨rest, st.closed ++ [(u, gu)], st.best,
      st.pred⟩).frontier.length ≤ rest.length + (outEdges G u).length := hlen2
  refine ⟨?_, hcl2', by omega⟩
  exact
    { frSub := inv2.frSub
      clSub := inv2.clSub
      clNodup := inv2.clNodup
      dOpen := inv2.dOpen
      soundFr := inv2.soundFr
      soundCl := inv2.soundCl
      opt := inv2.opt
      edgeCov := by
        intro a ha b w hw
        by_cases hau : a.1 = u
        · rw [hcl2'] at ha
          rcases List.mem_append.mp ha with h1 | h1
          · exact absurd (hau ▸ List.mem_map_of_mem Prod.fst h1) hucl
          · simp only [List.mem_singleton] at h1
            have ha2 : a.2 = gu := by rw [h1]
            have hwu : w ∈ costs G u b := by rw [← hau]; exact hw
            have hcov := hcov2 (b, w) ((mem_outEdges_iff G u b w).mpr hwu)
            rw [ha2]
            exact hcov
        · exact inv2.edgeCovOld a ha hau b w hw
      srcCov := inv2.srcCov
      bestFr := inv2.bestFr
      bestOpen := inv2.bestOpen
      bestCl := inv2.bestCl
      chain := inv2.chain }

/-- Extending the excluded keys by an element not in the list leaves the
filter unchanged. -/
theorem filter_notin_congr {keys : List ℕ} {u : ℕ} : ∀ {l : List ℕ}, u ∉ l →
    l.filter (fun x => decide (x ∉ keys ++ [u])) =
      l.filter (fun x => decide (x ∉ keys)) := by
  intro l hul
  apply List.filter_congr
  intro x hx
  have hxu : x ≠ u := fun hc => hul (hc ▸ hx)
  simp [List.mem_append, hxu]

/-- Excluding one present, previously unexcluded key shrinks the filter by
exactly one element. -/
theorem filter_remove_len : ∀ (l : List ℕ), l.Nodup → ∀ {u : ℕ} {keys : List ℕ},
    u ∈ l → u ∉ keys →
    (l.filter (fun x => decide (x ∉ keys ++ [u]))).length + 1 =
      (l.filter (fun x => decide (x ∉ keys))).length := by
  intro l
  induction l with
  | nil =>
    intro _ u keys hu _
    simp at hu
  | cons a t ih =>
    intro hnd u keys hu hukeys
    rw [List.nodup_cons] at hnd
    rcases List.mem_cons.mp hu with hh | hh
    · subst hh
      rw [List.filter_cons, List.filter_cons]
      rw [if_neg (by simp : ¬ (decide (u ∉ keys ++ [u]) = true))]
      rw [if_pos (by simpa using hukeys)]
      rw [filter_notin_congr hnd.1]
      simp
    · have hau : a ≠ u := fun hc => (hc ▸ hnd.1) hh
      rw [List.filter_cons, List.filter_cons]
      have he : decide (a ∉ keys ++ [u]) = decide (a ∉ keys) := by
        simp [List.mem_append, hau]
      rw [he]
      by_cases hk : (decide (a ∉ keys) = true)
      · rw [if_pos hk, if_pos hk]
        simp only [List.length_cons]
        have hrec := ih hnd.2 hh hukeys
        omega
      · rw [if_neg hk, if_neg hk]
        exact ih hnd.2 hh hukeys

/-- Finalizing one more graph node decreases the open count by one. -/
theorem openCount_append {G : Graph} (hnd : G.nodeIds.Nodup) {u : ℕ} {keys : List ℕ}
    (hu : u ∈ G.nodeIds) (hukeys : u ∉ keys) :
    openCount G (keys ++ [u]) + 1 = openCount G keys :=
  filter_remove_len G.nodeIds hnd hu hukeys

/-- Main loop correctness: under the invariant, with fuel exceeding the
potential, the loop never reports `InvalidNode`, reports `NoRouteFound`
only when the destination is unreachable, and a successful return carries
the `Post` facts. -/
theorem loop_main {G : Graph} {h : ℕ → ℚ} {s d : ℕ} (hGOK : GraphOK G h) :
    ∀ (fuel : ℕ) (st : SearchState), Inv G h s d st → pot G st < fuel →
      (astarLoop G h d fuel st ≠ .error .invalidNode) ∧
      (astarLoop G h d fuel st = .error .noRouteFound → ∀ c, ¬ Walk G s d c) ∧
      (∀ gd stF, astarLoop G h d fuel st = .ok (gd, stF) → Post G s d gd stF) := by
  intro fuel
  induction fuel with
  | zero =>
    intro st inv hpot
    exact absurd hpot (Nat.not_lt_zero _)
  | succ fuel ih =>
    intro st inv hpot
    rcases hpop : popMin h st.frontier with _ | ⟨⟨u, gu⟩, rest⟩
    · have hres : astarLoop G h d (fuel + 1) st = .error .noRouteFound := by
        rw [astarLoop_succ, hpop]
      have hfr : st.frontier = [] := (popMin_eq_none_iff h _).mp hpop
      refine ⟨?_, ?_, ?_⟩
      · rw [hres]
        simp
      · intro _ c hw
        obtain ⟨y, gy, c₂, hy, _, _⟩ := reach_frontier_entry inv hw inv.dOpen
        rw [hfr] at hy
        simp at hy
      · intro gd stF hok
        rw [hres] at hok
        exact absurd hok (by simp)
    · obtain ⟨hperm, hmin⟩ := popMin_spec h st.frontier (u, gu) rest hpop
      have hflen : st.frontier.length = rest.length + 1 := by
        have hpl := hperm.length_eq
        simpa using hpl
      by_cases hud : u = d
      · subst hud
        have hres : astarLoop G h u (fuel + 1) st =
            .ok (gu, ⟨rest, st.closed ++ [(u, gu)], st.best, st.pred⟩) := by
          rw [astarLoop_succ, hpop]
          exact if_pos rfl
        obtain ⟨hopt, _, _, hchain, hufr⟩ := close_entry hGOK inv hpop inv.dOpen
        refine ⟨?_, ?_, ?_⟩
        · rw [hres]
          simp
        · intro hc
          rw [hres] at hc
          exact absurd hc (by simp)
        · intro gd stF hok
          rw [hres] at hok
          simp only [Except.ok.injEq, Prod.mk.injEq] at hok
          obtain ⟨hgd, hstF⟩ := hok
          subst hgd
          subst hstF
          exact
            { chain := hchain
              lastd := List.getLast?_concat _
              opt := hopt
              sound := inv.soundFr (u, gu) hufr }
      · by_cases hstale : (alookup st.closed u).isSome = true
        · have hucl : u ∈ st.closed.map Prod.fst := by
            rcases hx : alookup st.closed u with _ | q
            · rw [hx] at hstale
              simp at hstale
            · exact List.mem_map_of_mem Prod.fst (alookup_mem hx)
          have hres : astarLoop G h d (fuel + 1) st =
              astarLoop G h d fuel ⟨rest, st.closed, st.best, st.pred⟩ := by
            rw [astarLoop_succ, hpop]
            exact (if_neg hud).trans (if_pos hstale)
          have inv' := stale_step inv hpop hucl
          have hpot' : pot G ⟨rest, st.closed, st.best, st.pred⟩ < fuel := by
            have hpot1 : pot G ⟨rest, st.closed, st.best, st.pred⟩ =
                rest.length +
                  openCount G (st.closed.map Prod.fst) * G.edges.length := rfl
            have hpotst : pot G st = st.frontier.length +
                openCount G (st.closed.map Prod.fst) * G.edges.length := rfl
            rw [hpot1]
            rw [hpotst] at hpot
            omega
          rw [hres]
          exact ih _ inv' hpot'
        · have hucl : u ∉ st.closed.map Prod.fst := by
            intro hc
            obtain ⟨p, hp, hpu⟩ := List.mem_map.mp hc
            apply hstale
            rw [mem_alookup inv.clNodup
              (show (u, p.2) ∈ st.closed by rw [← hpu]; exact hp)]
            rfl
          have hres : astarLoop G h d (fuel + 1) st =
              astarLoop G h d fuel
                (relaxAll G u gu ⟨rest, st.closed ++ [(u, gu)], st.best, st.pred⟩) := by
            rw [astarLoop_succ, hpop]
            exact (if_neg hud).trans (if_neg hstale)
          obtain ⟨inv', hcl', hlen'⟩ := genuine_step hGOK inv hpop hucl hud
          have hpot' : pot G (relaxAll G u gu
              ⟨rest, st.closed ++ [(u, gu)], st.best, st.pred⟩) < fuel := by
            have huN : u ∈ G.nodeIds :=
              inv.frSub (u, gu) (hperm.mem_iff.mpr (List.mem_cons_self _ _))
            have hoc := openCount_append hGOK.nodupIds huN hucl
            have hkeys : (st.closed ++ [(u, gu)]).map Prod.fst =
                st.closed.map Prod.fst ++ [u] := by
              simp
            have hpotF : pot G (relaxAll G u gu
                ⟨rest, st.closed ++ [(u, gu)], st.best, st.pred⟩) =
                (relaxAll G u gu
                  ⟨rest, st.closed ++ [(u, gu)], st.best, st.pred⟩).frontier.length +
                openCount G ((relaxAll G u gu
                  ⟨rest, st.closed ++ [(u, gu)], st.best,
                    st.pred⟩).closed.map Prod.fst) * G.edges.length := rfl
            have hpotst : pot G st = st.frontier.length +
                openCount G (st.closed.map Prod.fst) * G.edges.length := rfl
            rw [hpotF, hcl', hkeys]
            rw [hpotst] at hpot
            have hE : openCount G (st.closed.map Prod.fst ++ [u]) * G.edges.length +
                G.edges.length =
                openCount G (st.closed.map Prod.fst) * G.edges.length := by
              rw [← hoc]
              ring
            omega
          rw [hres]
          exact ih _ inv' hpot'

/-- The invariant holds initially: frontier `{source: g = 0}`, nothing
finalized. -/
theorem init_inv {G : Graph} {h : ℕ → ℚ} {s d : ℕ} (hs : s ∈ G.nodeIds) :
    Inv G h s d ⟨[(s, 0)], [], [(s, 0)], []⟩ :=
  { frSub := by
      intro a ha
      simp only [List.mem_singleton] at ha
      subst ha
      exact hs
    clSub := by intro a ha; simp at ha
    clNodup := by simp
    dOpen := by simp
    soundFr := by
      intro a ha
      simp only [List.mem_singleton] at ha
      subst ha
      exact Walk.nil s
    soundCl := by intro a ha; simp at ha
    opt := by intro a ha; simp at ha
    edgeCov := by intro a ha; simp at ha
    srcCov := Or.inr ⟨0, List.mem_singleton_self _, le_refl 0⟩
    bestFr := by
      intro a ha
      simp only [List.mem_singleton] at ha
      subst ha
      exact ⟨0, by rw [alookup_cons, if_pos rfl], le_refl 0⟩
    bestOpen := by
      intro a gb _ hlk
      rw [alookup_cons] at hlk
      by_cases has : s = a
      · rw [if_pos has] at hlk
        simp only [Option.some.injEq] at hlk
        subst hlk
        constructor
        · rw [← has]
          exact List.mem_singleton_self _
        · left
          exact ⟨has.symm, rfl, rfl⟩
      · rw [if_neg has] at hlk
        simp [alookup] at hlk
    bestCl := by intro a ha; simp at ha
    chain := by intro i hi; simp at hi }

/-- The chosen fuel strictly exceeds the initial potential. -/
theorem searchFuel_gt {G : Graph} {s : ℕ} :
    pot G ⟨[(s, 0)], [], [(s, 0)], []⟩ < searchFuel G := by
  have h1 : pot G ⟨[(s, 0)], [], [(s, 0)], []⟩ =
      1 + openCount G [] * G.edges.length := rfl
  have h2 : openCount G [] = G.nodeIds.length := by
    unfold openCount
    rw [show (fun x : ℕ => decide (x ∉ ([] : List ℕ))) = fun _ => true by
      funext x
      simp]
    rw [List.filter_true]
  have h3 : searchFuel G = (G.nodeList.length + 1) * (G.edges.length + 1) + 1 := rfl
  have h4 : G.nodeIds.length = G.nodeList.length := by
    unfold Graph.nodeIds
    rw [List.length_map]
  have hexp : (G.nodeList.length + 1) * (G.edges.length + 1) =
      G.nodeList.length * G.edges.length + G.nodeList.length + G.edges.length + 1 := by
    ring
  rw [h1, h2, h3, h4]
  omega

/-- Correctness of path reconstruction: under the chain property, following
predecessor links from any finalized node yields a listed walk from the
source to that node whose cost is the node's finalized `g`. -/
theorem buildPath_spec {G : Graph} {s : ℕ} {closed : List (ℕ × ℚ)}
    {pred : List (ℕ × ℕ)} (hch : ChainInv G s closed pred) :
    ∀ (i : ℕ) (hi : i < closed.length) (fl : ℕ), i < fl →
      WalkL G (buildPath pred fl (closed.get ⟨i, hi⟩).1) (closed.get ⟨i, hi⟩).2 ∧
      (buildPath pred fl (closed.get ⟨i, hi⟩).1).head? = some s ∧
      (buildPath pred fl (closed.get ⟨i, hi⟩).1).getLast? =
        some (closed.get ⟨i, hi⟩).1 := by
  intro i
  induction i using Nat.strong_induction_on with
  | _ i ihi =>
    intro hi fl hfl
    obtain ⟨m, rfl⟩ : ∃ m, fl = m + 1 := ⟨fl - 1, by omega⟩
    rcases hch i hi with ⟨hs1, h01, hnone⟩ | ⟨j, hj, hji, w, hlp, hw, heq⟩
    · have hbp : buildPath pred (m + 1) (closed.get ⟨i, hi⟩).1 =
          [(closed.get ⟨i, hi⟩).1] := by
        show (match alookup pred (closed.get ⟨i, hi⟩).1 with
          | none => [(closed.get ⟨i, hi⟩).1]
          | some p => buildPath pred m p ++ [(closed.get ⟨i, hi⟩).1]) = _
        rw [hnone]
      refine ⟨?_, ?_, ?_⟩
      · rw [hbp, h01, hs1]
        exact WalkL.single s
      · rw [hbp, hs1]
        rfl
      · rw [hbp]
        rfl
    · have hbp : buildPath pred (m + 1) (closed.get ⟨i, hi⟩).1 =
          buildPath pred m (closed.get ⟨j, hj⟩).1 ++ [(closed.get ⟨i, hi⟩).1] := by
        show (match alookup pred (closed.get ⟨i, hi⟩).1 with
          | none => [(closed.get ⟨i, hi⟩).1]
          | some p => buildPath pred m p ++ [(closed.get ⟨i, hi⟩).1]) = _
        rw [hlp]
      obtain ⟨hwk, hhd, hlast⟩ := ihi j hji hj m (by omega)
      refine ⟨?_, ?_, ?_⟩
      · rw [hbp, heq]
        exact hwk.append_edge hlast hw
      · rw [hbp, List.head?_append, hhd]
        rfl
      · rw [hbp]
        exact List.getLast?_concat _

/-- Complete characterization of `astarRun` on valid endpoints: a success
carries a walk achieving the optimal `g(destination)` along the returned
path; `NoRouteFound` is reported exactly on unreachability; `InvalidNode`
is never reported. -/
theorem astarRun_spec {G : Graph} {h : ℕ → ℚ} {s d : ℕ} (hGOK : GraphOK G h)
    (hs : s ∈ G.nodeIds) (hd : d ∈ G.nodeIds) :
    (∀ p gd, astarRun G h s d = .ok (p, gd) →
      WalkL G p gd ∧ p.head? = some s ∧ p.getLast? = some d ∧
        ∀ c, Walk G s d c → gd ≤ c) ∧
    (astarRun G h s d = .error .noRouteFound → ∀ c, ¬ Walk G s d c) ∧
    ((∃ c, Walk G s d c) → ∃ p gd, astarRun G h s d = .ok (p, gd)) ∧
    astarRun G h s d ≠ .error .invalidNode := by
  have hinit : Inv G h s d ⟨[(s, 0)], [], [(s, 0)], []⟩ := init_inv hs
  have hpotlt : pot G ⟨[(s, 0)], [], [(s, 0)], []⟩ < searchFuel G := searchFuel_gt
  obtain ⟨hni, hnr, hok⟩ := loop_main hGOK (searchFuel G) _ hinit hpotlt
  have hrun : astarRun G h s d =
      (match astarLoop G h d (searchFuel G) ⟨[(s, 0)], [], [(s, 0)], []⟩ with
      | .ok (gd, st) => .ok (buildPath st.pred st.closed.length d, gd)
      | .error e => .error e) := by
    unfold astarRun
    rw [if_pos ⟨hs, hd⟩]
  rcases hres : astarLoop G h d (searchFuel G) ⟨[(s, 0)], [], [(s, 0)], []⟩
    with e | pr
  · have hrun2 : astarRun G h s d = .error e := by
      rw [hrun, hres]
    refine ⟨?_, ?_, ?_, ?_⟩
    · intro p gd hok2
      rw [hrun2] at hok2
      exact absurd hok2 (by simp)
    · intro hnr2 c
      rw [hrun2] at hnr2
      simp only [Except.error.injEq] at hnr2
      subst hnr2
      exact hnr hres c
    · rintro ⟨c, hw⟩
      cases e with
      | invalidNode => exact absurd hres hni
      | noRouteFound => exact absurd hw (hnr hres c)
    · rw [hrun2]
      intro hc
      simp only [Except.error.injEq] at hc
      subst hc
      exact hni hres
  · obtain ⟨gd, stF⟩ := pr
    have hpost := hok gd stF hres
    have hrun2 : astarRun G h s d =
        .ok (buildPath stF.pred stF.closed.length d, gd) := by
      rw [hrun, hres]
    have hne : stF.closed ≠ [] := by
      intro hc
      have hl := hpost.lastd
      rw [hc] at hl
      simp at hl
    have hlt : stF.closed.length - 1 < stF.closed.length := by
      have hne0 : stF.closed.length ≠ 0 := fun hc =>
        hne (List.eq_nil_of_length_eq_zero hc)
      omega
    have hget : stF.closed.get ⟨stF.closed.length - 1, hlt⟩ = (d, gd) := by
      have h1 := hpost.lastd
      rw [List.getLast?_eq_get?, List.get?_eq_get hlt] at h1
      simpa using h1
    obtain ⟨hwk, hhd, hlast⟩ := buildPath_spec hpost.chain (stF.closed.length - 1)
      hlt stF.closed.length (by omega)
    rw [hget] at hwk hhd hlast
    refine ⟨?_, ?_, ?_, ?_⟩
    · intro p gd' hok2
      rw [hrun2] at hok2
      simp only [Except.ok.injEq, Prod.mk.injEq] at hok2
      obtain ⟨hp, hgd⟩ := hok2
      subst hp
      subst hgd
      exact ⟨hwk, hhd, hlast, hpost.opt⟩
    · intro hc
      rw [hrun2] at hc
      exact absurd hc (by simp)
    · intro _
      exact ⟨_, _, hrun2⟩
    · rw [hrun2]
      simp

/-- A list of edges with pairwise-distinct ordered endpoint pairs has at
most one parallel edge per pair. -/
theorem filter_key_nodup_len : ∀ (l : List (ℕ × ℕ × EdgeData)),
    (l.map (fun e => (e.1, e.2.1))).Nodup → ∀ u v : ℕ,
    (l.filter (fun e => e.1 == u && e.2.1 == v)).length ≤ 1 := by
  intro l
  induction l with
  | nil =>
    intro _ u v
    simp
  | cons a t ih =>
    intro hnd u v
    rw [List.map_cons, List.nodup_cons] at hnd
    rw [List.filter_cons]
    by_cases hp : (a.1 == u && a.2.1 == v) = true
    · rw [if_pos hp]
      simp only [List.length_cons]
      have hft : (t.filter (fun e => e.1 == u && e.2.1 == v)) = [] := by
        rw [List.filter_eq_nil]
        intro e he hc
        simp only [Bool.and_eq_true, beq_iff_eq] at hp hc
        apply hnd.1
        rw [show ((a.1, a.2.1) : ℕ × ℕ) = (e.1, e.2.1) by
          rw [hp.1, hp.2, hc.1, hc.2]]
        exact List.mem_map_of_mem _ he
      rw [hft]
      simp
    · rw [if_neg hp]
      exact ih hnd.2 u v

/-- A graph whose ordered endpoint pairs are pairwise distinct has no
parallel edges. -/
theorem edgeData_len_le_one {G : Graph}
    (hnd : (G.edges.map (fun e => (e.1, e.2.1))).Nodup) (u v : ℕ) :
    (G.edgeData u v).length ≤ 1 := by
  unfold Graph.edgeData
  rw [List.length_map]
  exact filter_key_nodup_len G.edges hnd u v

/-- C1 amended: for every graph with unique node ids, wellformed edges,
non-negative weights and at most one edge per ordered node pair, a
consistent heuristic (the spec asserts this of the program's geodesic
heuristic, §4.3), valid endpoints, and destination reachable from source,
the search succeeds; the returned path is a valid sequence from source to
destination whose `total_dist` equals the finalized `g(destination)`, and
this total is at most the `seqWeight` of every valid node sequence from
source to destination. (Without the no-parallel-edges hypothesis the code's
`total_dist` sums first-seen parallel edges and both conjuncts fail, see
the counterexample.) -/
theorem astar_route_optimal (G : Graph) (h : ℕ → ℚ) (s d : ℕ)
    (hnd : G.nodeIds.Nodup)
    (hwf : ∀ e ∈ G.edges, e.1 ∈ G.nodeIds ∧ e.2.1 ∈ G.nodeIds)
    (hnn : ∀ e ∈ G.edges, 0 ≤ e.2.2.length.getD 0)
    (hcons : ∀ u v w, w ∈ costs G u v → h u ≤ w + h v)
    (hsimple : ∀ u v, (G.edgeData u v).length ≤ 1)
    (hs : s ∈ G.nodeIds) (hd : d ∈ G.nodeIds)
    (hreach : ∃ c, Walk G s d c) :
    ∃ p gd, astarRun G h s d = .ok (p, gd) ∧
      astar_path G h s d = .ok p ∧
      validSeq G p ∧ p.head? = some s ∧ p.getLast? = some d ∧
      total_dist G p = gd ∧
      ∀ l, validSeq G l → l.head? = some s → l.getLast? = some d →
        total_dist G p ≤ seqWeight G l := by
  have hGOK : GraphOK G h := ⟨hnd, hwf, hnn, hcons⟩
  obtain ⟨hokspec, _, hex, _⟩ := astarRun_spec hGOK hs hd
  obtain ⟨p, gd, hrun⟩ := hex hreach
  obtain ⟨hwk, hhd, hlast, hopt⟩ := hokspec p gd hrun
  refine ⟨p, gd, hrun, ?_, hwk.valid, hhd, hlast, hwk.total_dist_eq hsimple, ?_⟩
  · unfold astar_path
    rw [hrun]
    rfl
  · intro l hv hh hl
    have hw2 := (validSeq_walkL G l hv).to_walk hh hl
    have hle := hopt (seqWeight G l) hw2
    rw [hwk.total_dist_eq hsimple]
    exact hle

/-- C1 witness: the spec scenario `A→B` of `100`, `B→C` of `50`, `A→C` of
`200` satisfies every hypothesis with the zero heuristic (all coordinates
coincide), and the amended optimality theorem applies: the search returns
`[0, 1, 2]` with total `150 ≤ 200`. -/
theorem astar_route_optimal_witness :
    (Gw1.nodeIds.Nodup ∧
      (∀ e ∈ Gw1.edges, e.1 ∈ Gw1.nodeIds ∧ e.2.1 ∈ Gw1.nodeIds) ∧
      (∀ e ∈ Gw1.edges, 0 ≤ e.2.2.length.getD 0) ∧
      (0 : ℕ) ∈ Gw1.nodeIds ∧ (2 : ℕ) ∈ Gw1.nodeIds) ∧
    (∃ p gd, astarRun Gw1 hZero 0 2 = .ok (p, gd) ∧
      astar_path Gw1 hZero 0 2 = .ok p ∧
      validSeq Gw1 p ∧ p.head? = some 0 ∧ p.getLast? = some 2 ∧
      total_dist Gw1 p = gd ∧
      ∀ l, validSeq Gw1 l → l.head? = some 0 → l.getLast? = some 2 →
        total_dist Gw1 p ≤ seqWeight Gw1 l) :=
  ⟨⟨by decide, by decide, by decide, by decide, by decide⟩,
    astar_route_optimal Gw1 hZero 0 2 (by decide) (by decide) (by decide)
      (fun u v w hw => by
        have hnn := costs_nonneg (G := Gw1) (by decide) hw
        show (0 : ℚ) ≤ w + 0
        linarith)
      (edgeData_len_le_one (by decide)) (by decide) (by decide)
      ⟨100 + (50 + 0), Walk.cons (by decide : (100 : ℚ) ∈ costs Gw1 0 1)
        (Walk.cons (by decide : (50 : ℚ) ∈ costs Gw1 1 2) (Walk.nil 2))⟩⟩

/-- C7: the search fails with `InvalidNode` exactly when source or
destination is absent from the graph; on valid endpoints it fails with
`NoRouteFound` exactly when the destination is unreachable from the
source, and returns a path whenever the destination is reachable (the
error type has no other constructor, so no other error is surfaced). -/
theorem find_path_error_conditions (G : Graph) (h : ℕ → ℚ) (s d : ℕ)
    (hnd : G.nodeIds.Nodup)
    (hwf : ∀ e ∈ G.edges, e.1 ∈ G.nodeIds ∧ e.2.1 ∈ G.nodeIds)
    (hnn : ∀ e ∈ G.edges, 0 ≤ e.2.2.length.getD 0)
    (hcons : ∀ u v w, w ∈ costs G u v → h u ≤ w + h v) :
    (astar_path G h s d = .error .invalidNode ↔
      ¬ (s ∈ G.nodeIds ∧ d ∈ G.nodeIds)) ∧
    (s ∈ G.nodeIds → d ∈ G.nodeIds →
      (astar_path G h s d = .error .noRouteFound ↔ ¬ ∃ c, Walk G s d c)) ∧
    (s ∈ G.nodeIds → d ∈ G.nodeIds → (∃ c, Walk G s d c) →
      ∃ p, astar_path G h s d = .ok p) := by
  have hGOK : GraphOK G h := ⟨hnd, hwf, hnn, hcons⟩
  refine ⟨?_, ?_, ?_⟩
  · constructor
    · intro herr hc
      obtain ⟨hs, hd⟩ := hc
      obtain ⟨_, _, _, hni⟩ := astarRun_spec hGOK hs hd
      unfold astar_path at herr
      rcases hx : astarRun G h s d with e | pr
      · rw [hx] at herr
        have herr2 : (Except.error e : Except RouteErr (List ℕ)) =
            .error .invalidNode := herr
        simp only [Except.error.injEq] at herr2
        subst herr2
        exact hni hx
      · rw [hx] at herr
        have herr2 : (Except.ok pr.1 : Except RouteErr (List ℕ)) =
            .error .invalidNode := herr
        exact absurd herr2 (by simp)
    · intro hc
      unfold astar_path astarRun
      rw [if_neg hc]
      rfl
  · intro hs hd
    obtain ⟨hokspec, hnr, _, hni⟩ := astarRun_spec hGOK hs hd
    constructor
    · intro herr
      unfold astar_path at herr
      rcases hx : astarRun G h s d with e | pr
      · rw [hx] at herr
        have herr2 : (Except.error e : Except RouteErr (List ℕ)) =
            .error .noRouteFound := herr
        simp only [Except.error.injEq] at herr2
        subst herr2
        rintro ⟨c, hw⟩
        exact hnr hx c hw
      · rw [hx] at herr
        have herr2 : (Except.ok pr.1 : Except RouteErr (List ℕ)) =
            .error .noRouteFound := herr
        exact absurd herr2 (by simp)
    · intro hur
      rcases hx : astarRun G h s d with e | pr
      · cases e with
        | invalidNode => exact absurd hx hni
        | noRouteFound =>
          unfold astar_path
          rw [hx]
          rfl
      · obtain ⟨p, gd⟩ := pr
        obtain ⟨hwk, hhd, hlast, _⟩ := hokspec p gd hx
        exact absurd ⟨gd, hwk.to_walk hhd hlast⟩ hur
  · intro hs hd hreach
    obtain ⟨_, _, hex, _⟩ := astarRun_spec hGOK hs hd
    obtain ⟨p, gd, hrun⟩ := hex hreach
    refine ⟨p, ?_⟩
    unfold astar_path
    rw [hrun]
    rfl

/-- C7 witness: on the scenario graph, querying from the dead-end node `2`
to `0` exercises the unreachable case, and all hypotheses hold with the
zero heuristic. -/
theorem find_path_error_conditions_witness :
    (Gw1.nodeIds.Nodup ∧
      (∀ e ∈ Gw1.edges, e.1 ∈ Gw1.nodeIds ∧ e.2.1 ∈ Gw1.nodeIds) ∧
      (∀ e ∈ Gw1.edges, 0 ≤ e.2.2.length.getD 0)) ∧
    ((astar_path Gw1 hZero 2 0 = .error .invalidNode ↔
        ¬ ((2 : ℕ) ∈ Gw1.nodeIds ∧ (0 : ℕ) ∈ Gw1.nodeIds)) ∧
      ((2 : ℕ) ∈ Gw1.nodeIds → (0 : ℕ) ∈ Gw1.nodeIds →
        (astar_path Gw1 hZero 2 0 = .error .noRouteFound ↔
          ¬ ∃ c, Walk Gw1 2 0 c)) ∧
      ((2 : ℕ) ∈ Gw1.nodeIds → (0 : ℕ) ∈ Gw1.nodeIds →
        (∃ c, Walk Gw1 2 0 c) → ∃ p, astar_path Gw1 hZero 2 0 = .ok p)) :=
  ⟨⟨by decide, by decide, by decide⟩,
    find_path_error_conditions Gw1 hZero 2 0 (by decide) (by decide) (by decide)
      (fun u v w hw => by
        have hnn := costs_nonneg (G := Gw1) (by decide) hw
        show (0 : ℚ) ≤ w + 0
        linarith)⟩

/-- C6 counterexample: a self-loop query returns the one-node path with
total distance `0`, but the step output is empty: the step loop iterates
over `zip(path[:-1], path[1:])`, which is empty for a one-node path, so no
Start step (nor any other step) is produced. -/
theorem self_query_no_steps_counterexample :
    astarRun Gw1 hZero 0 0 = .ok ([0], 0) ∧
      routeSteps Gw1 bearing [0] = [] ∧
      (routeSteps Gw1 bearing [0]).length ≠ 1 := by
  refine ⟨by with_unfolding_all rfl, rfl, by simp [routeSteps]⟩

/-- C6 amended: when source equals destination and the node is in the
graph, the search returns the one-node path with total distance `0`, and
the step output is empty (no Start step is produced for a one-node path). -/
theorem self_query_single_node (G : Graph) (h : ℕ → ℚ) (s : ℕ)
    (hs : s ∈ G.nodeIds) :
    astarRun G h s s = .ok ([s], 0) ∧ total_dist G [s] = 0 ∧
      routeSteps G bearing [s] = [] := by
  refine ⟨?_, rfl, rfl⟩
  unfold astarRun
  rw [if_pos ⟨hs, hs⟩]
  have hloop : astarLoop G h s (searchFuel G) ⟨[(s, 0)], [], [(s, 0)], []⟩ =
      .ok (0, ⟨[], [(s, 0)], [(s, 0)], []⟩) := by
    unfold searchFuel
    rw [astarLoop_succ]
    rw [show popMin h [(s, 0)] = some ((s, 0), []) from rfl]
    show (if s = s then _ else _) = _
    rw [if_pos rfl]
    rfl
  rw [hloop]
  rfl

/-- C6 witness: the amended self-loop behaviour on a concrete graph. -/
theorem self_query_single_node_witness :
    (0 : ℕ) ∈ Gw1.nodeIds ∧
      (astarRun Gw1 hZero 0 0 = .ok ([0], 0) ∧ total_dist Gw1 [0] = 0 ∧
        routeSteps Gw1 bearing [0] = []) :=
  ⟨by decide, self_query_single_node Gw1 hZero 0 (by decide)⟩

/-- C9: the pipeline is a pure function of the graph and query, so two
invocations with identical inputs on the unmodified graph yield identical
results (same node sequence and same total distance). -/
theorem repeated_query_same_result (G : Graph) (h : ℕ → ℚ) (s d : ℕ)
    (r₁ r₂ : Except RouteErr (List ℕ × ℚ))
    (h₁ : routeResult G h s d = r₁) (h₂ : routeResult G h s d = r₂) :
    r₁ = r₂ :=
  h₁.symm.trans h₂

/-- C9 witness: two evaluations of the concrete scenario query coincide. -/
theorem repeated_query_same_result_witness :
    (Except.ok ([0, 1, 2], (150 : ℚ)) : Except RouteErr (List ℕ × ℚ)) =
      Except.ok ([0, 1, 2], (150 : ℚ)) :=
  repeated_query_same_result Gw1 hZero 0 2 _ _
    (by with_unfolding_all rfl) (by with_unfolding_all rfl)

/-- C1 counterexample: `Gc1` has non-negative edge weights, coincident
coordinates (so the geodesic heuristic is identically `hZero`), and
destination `1` reachable from source `0`; the search returns path
`[0, 1]` with finalized `g(destination) = 50` (the cheaper parallel edge),
but `total_dist` sums the first-seen parallel edge and reports `200`,
which exceeds the weight `100` of the alternative valid sequence
`[0, 2, 1]` and differs from `g(destination)`. -/
theorem astar_total_not_optimal_counterexample :
    (∀ e ∈ Gc1.edges, 0 ≤ e.2.2.length.getD 0) ∧
      astarRun Gc1 hZero 0 1 = .ok ([0, 1], 50) ∧
      routeResult Gc1 hZero 0 1 = .ok ([0, 1], 200) ∧
      validSeq Gc1 [0, 2, 1] ∧
      ([0, 2, 1] : List ℕ).head? = some 0 ∧
      ([0, 2, 1] : List ℕ).getLast? = some 1 ∧
      seqWeight Gc1 [0, 2, 1] = 100 ∧
      total_dist Gc1 [0, 2, 1] = 100 ∧
      total_dist Gc1 [0, 1] = 200 ∧
      ¬ ((200 : ℚ) ≤ 100) ∧ (200 : ℚ) ≠ 50 := by
  refine ⟨by decide, by with_unfolding_all rfl, by with_unfolding_all rfl, by decide,
    rfl, rfl, by with_unfolding_all rfl, by with_unfolding_all rfl,
    by with_unfolding_all rfl, by decide, by decide⟩

end AStarRoute

